import Mathlib

/-!
Verification of the aggregation logic of the kylepittsleague league-history viewer.

The TypeScript pages are shallowly embedded: JS numbers become `ℚ`, JS strings
become `String`, JS `Map` becomes an insertion-ordered association list, and
`Array.prototype.sort` (stable since ES2019) becomes a stable insertion sort.
`localeCompare` is modelled as code-point comparison and `toLowerCase` as
ASCII lowering.
-/

namespace KPL

/-! ### JS string primitives -/

/-- The character class `\s` of JS regexes, also used by `String.prototype.trim`. -/
def isJsSpace (c : Char) : Bool :=
  c == ' ' || c == '\t' || c == '\n' || c == '\r' ||
  c.toNat == 0xb || c.toNat == 0xc || c.toNat == 0xa0 || c.toNat == 0x1680 ||
  (0x2000 ≤ c.toNat && c.toNat ≤ 0x200a) ||
  c.toNat == 0x2028 || c.toNat == 0x2029 || c.toNat == 0x202f ||
  c.toNat == 0x205f || c.toNat == 0x3000 || c.toNat == 0xfeff

/-- Model of `String.prototype.trim`. -/
def jsTrim (s : String) : String :=
  (((s.toList.dropWhile isJsSpace).reverse.dropWhile isJsSpace).reverse).asString

/-- Model of `String.prototype.toLowerCase` (accurate on ASCII data). -/
def jsLower (s : String) : String :=
  (s.toList.map Char.toLower).asString

/-- Split a character list at every occurrence of `sep`; mirrors
`String.prototype.split` with a single-character separator, so the empty
input yields `[[]]`. -/
def splitOnChar (sep : Char) : List Char → List (List Char)
  | [] => [[]]
  | c :: cs =>
    match splitOnChar sep cs with
    | [] => [[]]
    | cur :: rest => if c == sep then [] :: cur :: rest else (c :: cur) :: rest

/-- Drop one trailing carriage return, used to model splitting on `/\r?\n/`. -/
def dropTrailingCR (l : List Char) : List Char :=
  match l.reverse with
  | '\r' :: t => t.reverse
  | _ => l

/-- Model of `text.split(/\r?\n/)`. -/
def jsLines (s : String) : List String :=
  ((splitOnChar '\n' s.toList).map dropTrailingCR).map List.asString

/-- Model of `text.split(",")`. -/
def jsSplitComma (s : String) : List String :=
  (splitOnChar ',' s.toList).map List.asString

/-- Does `sub` occur as a contiguous run inside `l`? -/
def inclL (sub : List Char) : List Char → Bool
  | [] => sub.isEmpty
  | l@(_ :: t) => sub.isPrefixOf l || inclL sub t

/-- Model of `String.prototype.includes`. -/
def strIncludes (s sub : String) : Bool :=
  inclL sub.toList s.toList

/-! ### Association lists: model of the insertion-ordered JS `Map` -/

/-- Lookup in an association list (`Map.prototype.get`). -/
def alistGet? [DecidableEq κ] : List (κ × β) → κ → Option β
  | [], _ => none
  | e :: t, k => if e.1 = k then some e.2 else alistGet? t k

/-- Update-in-place-or-append (`Map.prototype.set`): an existing key keeps its
position, a new key is appended, which is exactly the JS `Map` insertion order. -/
def alistSet [DecidableEq κ] : List (κ × β) → κ → β → List (κ × β)
  | [], k, v => [(k, v)]
  | e :: t, k, v => if e.1 = k then (k, v) :: t else e :: alistSet t k v

theorem alistGet?_alistSet_self [DecidableEq κ] (m : List (κ × β)) (k : κ) (v : β) :
    alistGet? (alistSet m k v) k = some v := by
  induction m with
  | nil => simp [alistSet, alistGet?]
  | cons e t ih =>
    by_cases h : e.1 = k
    · simp [alistSet, alistGet?, h]
    · simp [alistSet, alistGet?, h, ih]

theorem alistGet?_alistSet_ne [DecidableEq κ] (m : List (κ × β)) (k k' : κ) (v : β)
    (h : k' ≠ k) : alistGet? (alistSet m k v) k' = alistGet? m k' :=
  by
  induction m with
  | nil => simp [alistSet, alistGet?, Ne.symm h]
  | cons e t ih =>
    by_cases he : e.1 = k
    · simp only [alistSet, if_pos he, alistGet?]
      rw [if_neg (Ne.symm h), if_neg (fun hh : e.1 = k' => h (hh.symm.trans he))]
    · simp only [alistSet, if_neg he, alistGet?]
      by_cases he' : e.1 = k'
      · simp [he']
      · simp [he', ih]

theorem alistGet?_mem [DecidableEq κ] (m : List (κ × β)) (k : κ) (v : β)
    (h : alistGet? m k = some v) : (k, v) ∈ m := by
  induction m with
  | nil => simp [alistGet?] at h
  | cons e t ih =>
    by_cases he : e.1 = k
    · simp only [alistGet?, if_pos he] at h
      have hv : e.2 = v := Option.some.inj h
      have hkv : e = (k, v) := Prod.ext he hv
      simp [hkv]
    · simp only [alistGet?, if_neg he] at h
      exact List.mem_cons_of_mem _ (ih h)

/-! ### Stable sort: model of `Array.prototype.sort` (stable since ES2019) -/

/-- Insert `a` into `l`, placing it after every element that is `le` it;
with a total preorder this is the stable insertion position. -/
def ordInsert (le : α → α → Bool) (a : α) : List α → List α
  | [] => [a]
  | b :: l => if le a b then a :: b :: l else b :: ordInsert le a l

/-- Stable insertion sort, the model of `Array.prototype.sort(cmp)` with
`le a b := cmp a b ≤ 0`. -/
def jsSort (le : α → α → Bool) : List α → List α
  | [] => []
  | b :: l => ordInsert le b (jsSort le l)

theorem ordInsert_perm (le : α → α → Bool) (a : α) (l : List α) :
    (ordInsert le a l).Perm (a :: l) := by
  induction l with
  | nil => simp [ordInsert]
  | cons b t ih =>
    by_cases h : le a b
    · simp [ordInsert, h]
    · simp only [ordInsert, h]
      exact ((ih.cons b).trans (List.Perm.swap a b t)).symm.symm

theorem jsSort_perm (le : α → α → Bool) (l : List α) : (jsSort le l).Perm l := by
  induction l with
  | nil => simp [jsSort]
  | cons b t ih =>
    exact (ordInsert_perm le b (jsSort le t)).trans (ih.cons b)

theorem mem_jsSort (le : α → α → Bool) (l : List α) (a : α) :
    a ∈ jsSort le l ↔ a ∈ l :=
  (jsSort_perm le l).mem_iff

theorem mem_ordInsert (le : α → α → Bool) (a x : α) (l : List α) :
    x ∈ ordInsert le a l ↔ x = a ∨ x ∈ l := by
  rw [(ordInsert_perm le a l).mem_iff]
  simp

theorem ordInsert_pairwise (le : α → α → Bool)
    (htrans : ∀ a b c, le a b = true → le b c = true → le a c = true)
    (htot : ∀ a b, le a b = true ∨ le b a = true)
    (a : α) (l : List α)
    (hl : l.Pairwise (fun x y => le x y = true)) :
    (ordInsert le a l).Pairwise (fun x y => le x y = true) := by
  induction l with
  | nil => simp [ordInsert]
  | cons b t ih =>
    rcases hl with _ | ⟨hb, ht⟩
    by_cases h : le a b = true
    · have hrw : ordInsert le a (b :: t) = a :: b :: t := by
        simp [ordInsert, h]
      rw [hrw]
      refine List.Pairwise.cons ?_ (List.Pairwise.cons hb ht)
      intro x hx
      rcases List.mem_cons.1 hx with hx | hx
      · rw [hx]
        exact h
      · exact htrans a b x h (hb x hx)
    · have hrw : ordInsert le a (b :: t) = b :: ordInsert le a t := by
        simp [ordInsert, h]
      rw [hrw]
      refine List.Pairwise.cons ?_ (ih ht)
      intro x hx
      rcases (mem_ordInsert le a x t).1 hx with hx | hx
      · rcases htot a b with hab | hba
        · exact absurd hab h
        · rw [hx]
          exact hba
      · exact hb x hx

theorem jsSort_pairwise (le : α → α → Bool)
    (htrans : ∀ a b c, le a b = true → le b c = true → le a c = true)
    (htot : ∀ a b, le a b = true ∨ le b a = true)
    (l : List α) :
    (jsSort le l).Pairwise (fun x y => le x y = true) := by
  induction l with
  | nil => simp [jsSort]
  | cons b t ih => exact ordInsert_pairwise le htrans htot b _ ih

/-! ### Comparator framework

A JS comparator returning a number is modelled as an `Ordering`-valued
function (`.lt` for a negative return, `.eq` for zero, `.gt` for positive).
`CmpLaws` collects the properties that make such a comparator a total
preorder, so that sorting by `cmp · · ≠ .gt` is well behaved. -/

/-- Three-way comparison in a linear order. -/
def cmpAsc [LinearOrder α] (x y : α) : Ordering :=
  if x < y then .lt else if y < x then .gt else .eq

/-- The laws a JS comparator needs for `sort` to produce a sorted output. -/
structure CmpLaws (cmp : α → α → Ordering) : Prop where
  swap : ∀ a b, cmp a b = (cmp b a).swap
  lt_trans : ∀ a b c, cmp a b = .lt → cmp b c = .lt → cmp a c = .lt
  eq_congr : ∀ a b c, cmp a b = .eq → cmp b c = cmp a c

/-- Boolean "comparator result is not positive", the `le` handed to the sort. -/
def cmpLe (cmp : α → α → Ordering) (a b : α) : Bool :=
  match cmp a b with
  | .gt => false
  | _ => true

theorem cmpLe_iff (cmp : α → α → Ordering) (a b : α) :
    cmpLe cmp a b = true ↔ cmp a b ≠ .gt := by
  cases h : cmp a b <;> simp [cmpLe, h]

theorem cmpAsc_eq_iff [LinearOrder α] (x y : α) : cmpAsc x y = .eq ↔ x = y := by
  rcases lt_trichotomy x y with h | h | h
  · simp [cmpAsc, h, ne_of_lt h]
  · simp [cmpAsc, h, lt_irrefl]
  · simp [cmpAsc, h, not_lt_of_gt h, ne_of_gt h]

theorem cmpAsc_lt_iff [LinearOrder α] (x y : α) : cmpAsc x y = .lt ↔ x < y := by
  rcases lt_trichotomy x y with h | h | h
  · simp [cmpAsc, h]
  · simp [cmpAsc, h, lt_irrefl]
  · simp [cmpAsc, h, not_lt_of_gt h]

theorem cmpAsc_laws [LinearOrder α] : CmpLaws (cmpAsc (α := α)) := by
  refine ⟨?_, ?_, ?_⟩
  · intro a b
    rcases lt_trichotomy a b with h | h | h
    · simp [cmpAsc, h, not_lt_of_gt h, Ordering.swap]
    · simp [cmpAsc, h, lt_irrefl, Ordering.swap]
    · simp [cmpAsc, h, not_lt_of_gt h, Ordering.swap]
  · intro a b c hab hbc
    rw [cmpAsc_lt_iff] at hab hbc ⊢
    exact lt_trans hab hbc
  · intro a b c hab
    rw [cmpAsc_eq_iff] at hab
    rw [hab]

/-- Comparator on a projected ascending key. -/
def cmpBy [LinearOrder β] (k : α → β) (a b : α) : Ordering := cmpAsc (k a) (k b)

/-- Comparator on a projected descending key (the JS `b.key - a.key` idiom). -/
def cmpByD [LinearOrder β] (k : α → β) (a b : α) : Ordering := cmpAsc (k b) (k a)

/-- Sequential composition of comparators (the JS early-return chain). -/
def cmpThen (c₁ c₂ : α → α → Ordering) (a b : α) : Ordering :=
  (c₁ a b).then (c₂ a b)

theorem cmpBy_laws [LinearOrder β] (k : α → β) : CmpLaws (cmpBy k) := by
  refine ⟨?_, ?_, ?_⟩
  · intro a b
    exact cmpAsc_laws.swap (k a) (k b)
  · intro a b c hab hbc
    exact cmpAsc_laws.lt_trans _ _ _ hab hbc
  · intro a b c hab
    exact cmpAsc_laws.eq_congr _ _ (k c) hab

theorem cmpByD_laws [LinearOrder β] (k : α → β) : CmpLaws (cmpByD k) := by
  refine ⟨?_, ?_, ?_⟩
  · intro a b
    exact cmpAsc_laws.swap (k b) (k a)
  · intro a b c hab hbc
    exact cmpAsc_laws.lt_trans _ _ _ hbc hab
  · intro a b c hab
    unfold cmpByD at hab ⊢
    rw [cmpAsc_eq_iff] at hab
    rw [hab]

theorem thenCmb_eq_eq {o₁ o₂ : Ordering} :
    o₁.then o₂ = .eq ↔ o₁ = .eq ∧ o₂ = .eq := by
  cases o₁ <;> simp [Ordering.then]

theorem thenCmb_eq_lt {o₁ o₂ : Ordering} :
    o₁.then o₂ = .lt ↔ o₁ = .lt ∨ (o₁ = .eq ∧ o₂ = .lt) := by
  cases o₁ <;> simp [Ordering.then]

theorem CmpLaws.eq_congr_r {cmp : α → α → Ordering} (h : CmpLaws cmp)
    (a b c : α) (hbc : cmp b c = .eq) : cmp a b = cmp a c := by
  have h1 : cmp c b = .eq := by rw [h.swap c b, hbc]; rfl
  have h2 : cmp b a = cmp c a := h.eq_congr c b a h1
  have h3 : cmp a b = (cmp b a).swap := h.swap a b
  have h4 : cmp a c = (cmp c a).swap := h.swap a c
  rw [h3, h4, h2]

theorem cmpThen_laws {c₁ c₂ : α → α → Ordering}
    (h₁ : CmpLaws c₁) (h₂ : CmpLaws c₂) : CmpLaws (cmpThen c₁ c₂) := by
  refine ⟨?_, ?_, ?_⟩
  · intro a b
    unfold cmpThen
    rw [h₁.swap a b, h₂.swap a b]
    cases c₁ b a <;> cases c₂ b a <;> rfl
  · intro a b c hab hbc
    unfold cmpThen at *
    rcases thenCmb_eq_lt.1 hab with hab' | ⟨hab', hab₂⟩ <;>
      rcases thenCmb_eq_lt.1 hbc with hbc' | ⟨hbc', hbc₂⟩
    · exact thenCmb_eq_lt.2 (Or.inl (h₁.lt_trans a b c hab' hbc'))
    · refine thenCmb_eq_lt.2 (Or.inl ?_)
      rw [← h₁.eq_congr_r a b c hbc', hab']
    · refine thenCmb_eq_lt.2 (Or.inl ?_)
      rw [← h₁.eq_congr a b c hab', hbc']
    · refine thenCmb_eq_lt.2 (Or.inr ⟨?_, ?_⟩)
      · rw [← h₁.eq_congr a b c hab', hbc']
      · exact h₂.lt_trans a b c hab₂ hbc₂
  · intro a b c hab
    unfold cmpThen at *
    rcases thenCmb_eq_eq.1 hab with ⟨e₁, e₂⟩
    rw [h₁.eq_congr a b c e₁, h₂.eq_congr a b c e₂]

theorem CmpLaws.le_total {cmp : α → α → Ordering} (h : CmpLaws cmp) (a b : α) :
    cmpLe cmp a b = true ∨ cmpLe cmp b a = true := by
  rw [cmpLe_iff, cmpLe_iff]
  by_cases hab : cmp a b = .gt
  · right
    rw [h.swap b a, hab]
    simp [Ordering.swap]
  · exact Or.inl hab

theorem CmpLaws.le_trans {cmp : α → α → Ordering} (h : CmpLaws cmp)
    (a b c : α) (hab : cmpLe cmp a b = true) (hbc : cmpLe cmp b c = true) :
    cmpLe cmp a c = true := by
  rw [cmpLe_iff] at hab hbc ⊢
  cases h1 : cmp a b with
  | gt => exact absurd h1 hab
  | lt =>
    cases h2 : cmp b c with
    | gt => exact absurd h2 hbc
    | lt => simp [h.lt_trans a b c h1 h2]
    | eq => rw [← h.eq_congr_r a b c h2, h1]; simp
  | eq =>
    rw [h.eq_congr a b c h1] at hbc
    exact hbc

/-- Sorting with a lawful comparator yields a `cmpLe`-pairwise list. -/
theorem jsSort_pairwise_cmp {cmp : α → α → Ordering} (h : CmpLaws cmp)
    (l : List α) :
    (jsSort (cmpLe cmp) l).Pairwise (fun x y => cmpLe cmp x y = true) :=
  jsSort_pairwise _ h.le_trans h.le_total l

/-! ### String comparison: model of `String.prototype.localeCompare`
as code-point comparison. -/

theorem Char.toNat_injective (a b : Char) (h : a.toNat = b.toNat) : a = b := by
  have hv : a.val = b.val := by
    apply UInt32.eq_of_toBitVec_eq
    apply BitVec.eq_of_toNat_eq
    exact h
  exact Char.eq_of_val_eq hv

/-- Lexicographic three-way comparison of character lists. -/
def strCmpL : List Char → List Char → Ordering
  | [], [] => .eq
  | [], _ :: _ => .lt
  | _ :: _, [] => .gt
  | a :: as, b :: bs => (cmpAsc a.toNat b.toNat).then (strCmpL as bs)

theorem strCmpL_eq_iff (x y : List Char) : strCmpL x y = .eq ↔ x = y := by
  induction x generalizing y with
  | nil => cases y <;> simp [strCmpL]
  | cons a as ih =>
    cases y with
    | nil => simp [strCmpL]
    | cons b bs =>
      simp only [strCmpL, thenCmb_eq_eq, cmpAsc_eq_iff, ih, List.cons.injEq]
      constructor
      · rintro ⟨h1, h2⟩
        exact ⟨Char.toNat_injective a b h1, h2⟩
      · rintro ⟨h1, h2⟩
        exact ⟨h1 ▸ rfl, h2⟩

theorem strCmpL_laws : CmpLaws strCmpL := by
  refine ⟨?_, ?_, ?_⟩
  · intro x
    induction x with
    | nil => intro y; cases y <;> rfl
    | cons a as ih =>
      intro y
      cases y with
      | nil => rfl
      | cons b bs =>
        show (cmpAsc a.toNat b.toNat).then (strCmpL as bs) =
          ((cmpAsc b.toNat a.toNat).then (strCmpL bs as)).swap
        rw [cmpAsc_laws.swap a.toNat b.toNat, ih bs]
        cases cmpAsc b.toNat a.toNat <;> cases strCmpL bs as <;> rfl
  · intro x
    induction x with
    | nil =>
      intro y z hxy hyz
      cases y with
      | nil => exact hyz
      | cons b bs =>
        cases z with
        | nil => simp [strCmpL] at hyz
        | cons c cs => rfl
    | cons a as ih =>
      intro y z hxy hyz
      cases y with
      | nil => simp [strCmpL] at hxy
      | cons b bs =>
        cases z with
        | nil => simp [strCmpL] at hyz
        | cons c cs =>
          simp only [strCmpL, thenCmb_eq_lt, cmpAsc_eq_iff, cmpAsc_lt_iff] at hxy hyz ⊢
          rcases hxy with h1 | ⟨h1, h1'⟩ <;> rcases hyz with h2 | ⟨h2, h2'⟩
          · exact Or.inl (lt_trans h1 h2)
          · exact Or.inl (h2 ▸ h1)
          · exact Or.inl (h1 ▸ h2)
          · exact Or.inr ⟨h1.trans h2, ih bs cs h1' h2'⟩
  · intro x y z hxy
    rw [strCmpL_eq_iff] at hxy
    rw [hxy]

/-- Model of `a.localeCompare(b)` as code-point comparison. -/
def localeCmp (a b : String) : Ordering := strCmpL a.toList b.toList

theorem localeCmp_laws : CmpLaws localeCmp := by
  refine ⟨?_, ?_, ?_⟩
  · intro a b
    exact strCmpL_laws.swap a.toList b.toList
  · intro a b c h1 h2
    exact strCmpL_laws.lt_trans _ _ _ h1 h2
  · intro a b c h1
    exact strCmpL_laws.eq_congr _ _ c.toList h1

theorem localeCmp_eq_iff (a b : String) : localeCmp a b = .eq ↔ a = b := by
  unfold localeCmp
  rw [strCmpL_eq_iff]
  constructor
  · intro h
    cases a
    cases b
    simp only [String.toList] at h
    exact congrArg String.mk h
  · intro h
    rw [h]

/-- Comparator on a projected string key via `localeCompare`. -/
def cmpStrBy (k : α → String) (a b : α) : Ordering := localeCmp (k a) (k b)

theorem cmpStrBy_laws (k : α → String) : CmpLaws (cmpStrBy k) := by
  refine ⟨?_, ?_, ?_⟩
  · intro a b
    exact localeCmp_laws.swap (k a) (k b)
  · intro a b c h1 h2
    exact localeCmp_laws.lt_trans _ _ _ h1 h2
  · intro a b c h1
    unfold cmpStrBy at h1 ⊢
    rw [localeCmp_eq_iff] at h1
    rw [h1]

/-! ### Kernel-computable rational arithmetic

The high-level `Rat` operations of the library do not reduce inside `decide`,
so the embedding uses `Rat.divInt`-based equivalents, each proved equal to
the standard operation. -/

def qAdd (a b : ℚ) : ℚ := Rat.divInt (a.num * b.den + b.num * a.den) ((a.den : ℤ) * b.den)

def qMul (a b : ℚ) : ℚ := Rat.divInt (a.num * b.num) ((a.den : ℤ) * b.den)

def qDiv (a b : ℚ) : ℚ := Rat.divInt (a.num * b.den) ((a.den : ℤ) * b.num)

def qNeg (a : ℚ) : ℚ := Rat.divInt (-a.num) (a.den : ℤ)

/-- `10 ^ n` as a computable rational. -/
def qTenPow (n : Nat) : ℚ := Rat.divInt ((10 : ℤ) ^ n) 1

theorem den_cast_ne_zero (a : ℚ) : ((a.den : ℚ)) ≠ 0 := by
  exact_mod_cast a.den_nz

theorem qAdd_eq (a b : ℚ) : qAdd a b = a + b := by
  rw [qAdd, Rat.divInt_eq_div]
  push_cast
  conv_rhs => rw [← Rat.num_div_den a, ← Rat.num_div_den b]
  field_simp

theorem qMul_eq (a b : ℚ) : qMul a b = a * b := by
  rw [qMul, Rat.divInt_eq_div]
  push_cast
  conv_rhs => rw [← Rat.num_div_den a, ← Rat.num_div_den b]
  field_simp

theorem qDiv_eq (a b : ℚ) : qDiv a b = a / b := by
  rw [qDiv, Rat.divInt_eq_div]
  push_cast
  by_cases hb : b = 0
  · subst hb
    simp
  · have hbn : ((b.num : ℚ)) ≠ 0 := by
      exact_mod_cast Rat.num_ne_zero.mpr hb
    conv_rhs => rw [← Rat.num_div_den a, ← Rat.num_div_den b]
    field_simp

theorem qNeg_eq (a : ℚ) : qNeg a = -a := by
  rw [qNeg, Rat.divInt_eq_div]
  push_cast
  conv_rhs => rw [← Rat.num_div_den a]
  field_simp

theorem qTenPow_eq (n : Nat) : qTenPow n = (10 : ℚ) ^ n := by
  rw [qTenPow, Rat.divInt_eq_div]
  push_cast
  simp

/-- JS `reduce((a, x) => a + x, init)` over rationals. -/
def qSum (init : ℚ) (l : List ℚ) : ℚ := l.foldl qAdd init

theorem qSum_eq (init : ℚ) (l : List ℚ) : qSum init l = init + l.sum := by
  induction l generalizing init with
  | nil => simp [qSum]
  | cons x t ih =>
    simp only [qSum, List.foldl_cons, List.sum_cons] at *
    rw [ih (qAdd init x), qAdd_eq]
    ring

/-! ### Model of the JS `Number(string)` conversion

`jsNumberFinite` returns `none` where `Number(s)` is `NaN` or `±Infinity`
(the callers only ever guard with `Number.isFinite`), and the exact rational
value otherwise.  Binary/octal/hex literals and decimal/exponent notation
follow the `StringNumericLiteral` grammar. -/

def isDigitB (c : Char) : Bool := 48 ≤ c.toNat && c.toNat ≤ 57

def digitVal (c : Char) : Nat := c.toNat - 48

def natOfDigits (l : List Char) : Nat :=
  l.foldl (fun a c => a * 10 + digitVal c) 0

/-- Digit value in a radix ≤ 36, `none` for an invalid character. -/
def radixVal (base : Nat) (c : Char) : Option Nat :=
  let n := c.toNat
  let v :=
    if 48 ≤ n && n ≤ 57 then some (n - 48)
    else if 97 ≤ n && n ≤ 122 then some (n - 87)
    else if 65 ≤ n && n ≤ 90 then some (n - 55)
    else none
  match v with
  | some d => if d < base then some d else none
  | none => none

def natOfRadix (base : Nat) (l : List Char) : Option Nat :=
  l.foldl (fun acc c =>
    match acc, radixVal base c with
    | some a, some d => some (a * base + d)
    | _, _ => none) (some 0)

/-- A `0x`/`0o`/`0b` literal body: all digits valid and at least one digit. -/
def parseRadix (base : Nat) (l : List Char) : Option ℚ :=
  if l.isEmpty then none
  else (natOfRadix base l).map (fun n => (n : ℚ))

/-- Optional exponent part `[eE][+-]?digits`; returns the power-of-ten factor. -/
def parseExpPart : List Char → Option ℚ
  | [] => some 1
  | c :: r =>
    if c == 'e' || c == 'E' then
      let (neg, r') := match r with
        | '+' :: t => (false, t)
        | '-' :: t => (true, t)
        | t => (false, t)
      if r'.isEmpty || !(r'.all isDigitB) then none
      else some (if neg then qDiv 1 (qTenPow (natOfDigits r')) else qTenPow (natOfDigits r'))
    else none

/-- Unsigned decimal literal `digits[.digits][exp]` or `.digits[exp]`. -/
def parseDecCore (l : List Char) : Option ℚ :=
  let ip := l.takeWhile isDigitB
  let rest₁ := l.dropWhile isDigitB
  match rest₁ with
  | '.' :: r₂ =>
    let fp := r₂.takeWhile isDigitB
    let rest₂ := r₂.dropWhile isDigitB
    if ip.isEmpty && fp.isEmpty then none
    else
      (parseExpPart rest₂).map (fun e =>
        qMul (qAdd (natOfDigits ip : ℚ) (qDiv (natOfDigits fp : ℚ) (qTenPow fp.length))) e)
  | _ =>
    if ip.isEmpty then none
    else (parseExpPart rest₁).map (fun e => qMul (natOfDigits ip : ℚ) e)

def parseSignedDec (l : List Char) : Option ℚ :=
  let core := fun (r : List Char) =>
    if r = "Infinity".toList then none else parseDecCore r
  match l with
  | '+' :: r => core r
  | '-' :: r => (core r).map qNeg
  | r => core r

/-- `Number(s)` restricted to finite results: `none` models `NaN` and `±∞`. -/
def jsNumberFinite (s : String) : Option ℚ :=
  match (jsTrim s).toList with
  | [] => some 0
  | '0' :: x :: r =>
    if x == 'x' || x == 'X' then parseRadix 16 r
    else if x == 'o' || x == 'O' then parseRadix 8 r
    else if x == 'b' || x == 'B' then parseRadix 2 r
    else parseSignedDec ('0' :: x :: r)
  | l => parseSignedDec l

/-! ### Tabular text parser (`parseCsv` of roll-of-honour and draft pages) -/

/-- A parsed CSV row: a string-keyed record in insertion order. -/
abbrev RowMap := List (String × String)

/-- Model of `parseCsv`: first line gives headers, later lines are zipped
positionally, missing trailing fields default to the empty string. -/
def parseCsv (text : String) : List RowMap :=
  match jsLines (jsTrim text) with
  | [] => []
  | header :: rest =>
    let headers := (jsSplitComma header).map jsTrim
    rest.map (fun line =>
      let cols := jsSplitComma line
      headers.enum.foldl (fun row ih => alistSet row ih.2 (jsTrim (cols.getD ih.1 ""))) [])

/-! ### Data model of the head-to-head JSON (`h2h.json`) -/

/-- A precomputed pairwise record between two managers. -/
structure Pair where
  a : String
  b : String
  a_wins : ℚ
  b_wins : ℚ
  ties : ℚ
  a_points_for : ℚ
  b_points_for : ℚ
deriving DecidableEq

/-- The head-to-head document (`updated_at` is never read and is omitted). -/
structure H2H where
  managers : List String
  pairs : List Pair
deriving DecidableEq

/-- The shared win-percentage expression `games ? (wins + 0.5*ties)/games : 0`
used by both the roll-of-honour and head-to-head pages. -/
def winPctOf (w l t : ℚ) : ℚ :=
  if qAdd (qAdd w l) t = 0 then 0
  else qDiv (qAdd w (qMul (Rat.divInt 1 2) t)) (qAdd (qAdd w l) t)

/-- The win-percentage formula in its specification form. -/
theorem winPctOf_eq (w l t : ℚ) :
    winPctOf w l t = if w + l + t = 0 then 0 else (w + (1/2) * t) / (w + l + t) := by
  have hh : (Rat.divInt 1 2) = (1 : ℚ) / 2 := by
    rw [Rat.divInt_eq_div]
    norm_num
  simp only [winPctOf, qAdd_eq, qMul_eq, qDiv_eq, hh]

/-- The roll-of-honour win/loss/tie accumulation loop over `h2hData.pairs`. -/
def rollWLT (d : H2H) (mgr : String) : ℚ × ℚ × ℚ :=
  d.pairs.foldl
    (fun acc p =>
      if p.a = mgr then (qAdd acc.1 p.a_wins, qAdd acc.2.1 p.b_wins, qAdd acc.2.2 p.ties)
      else if p.b = mgr then (qAdd acc.1 p.b_wins, qAdd acc.2.1 p.a_wins, qAdd acc.2.2 p.ties)
      else acc)
    (0, 0, 0)

/-- The roll-of-honour `winPct` for one manager, from `h2h.json`. -/
def rollWinPct (d : H2H) (mgr : String) : ℚ :=
  let wlt := rollWLT d mgr
  winPctOf wlt.1 wlt.2.1 wlt.2.2

/-! ### Season Aggregator (roll-of-honour `table`) -/

/-- Per-manager career totals, mirroring the `Totals` type of the page. -/
structure Totals where
  manager : String
  seasons : Nat
  gold : Nat
  silver : Nat
  bronze : Nat
  podiums : Nat
  points : Nat
  avgFinish : ℚ
  playoffsMade : Nat
  winPct : ℚ
deriving DecidableEq

/-- The zero-initialised `Totals` object created on first sight of a manager. -/
def initTotals (mgr : String) : Totals :=
  { manager := mgr, seasons := 0, gold := 0, silver := 0, bronze := 0,
    podiums := 0, points := 0, avgFinish := 0, playoffsMade := 0, winPct := 0 }

/-- The two insertion-ordered maps built by the aggregation loop:
`byMgr` and `bestByMgrSeason`. -/
structure RollState where
  byMgr : List (String × Totals)
  best : List (String × List (String × ℚ))

/-- The medal/points update for one finish row. -/
def placeUpd (p : ℚ) (t : Totals) : Totals :=
  let t :=
    if p = 1 then { t with gold := t.gold + 1, points := t.points + 3 }
    else if p = 2 then { t with silver := t.silver + 1, points := t.points + 2 }
    else if p = 3 then { t with bronze := t.bronze + 1, points := t.points + 1 }
    else t
  { t with podiums := t.gold + t.silver + t.bronze }

/-- The best-place-per-season update for one finish row. -/
def bestUpd (season : String) (p : ℚ) (m : List (String × ℚ)) : List (String × ℚ) :=
  match alistGet? m season with
  | none => alistSet m season p
  | some prev => if p < prev then alistSet m season p else m

/-- One iteration of the `for (const r of rows)` loop of the aggregator. -/
def rollStep (st : RollState) (r : RowMap) : RollState :=
  let mgr := jsTrim ((alistGet? r "manager").getD "")
  let season := jsTrim ((alistGet? r "season").getD "")
  match (alistGet? r "place").bind jsNumberFinite with
  | none => st
  | some p =>
    if mgr = "" ∨ season = "" ∨ p ≤ 0 ∨ 9000 ≤ p then st
    else
      let known := (alistGet? st.byMgr mgr).isSome
      let byMgr := if known then st.byMgr else alistSet st.byMgr mgr (initTotals mgr)
      let best := if known then st.best else alistSet st.best mgr []
      let t := placeUpd p ((alistGet? byMgr mgr).getD (initTotals mgr))
      let m := bestUpd season p ((alistGet? best mgr).getD [])
      { byMgr := alistSet byMgr mgr t, best := alistSet best mgr m }

/-- The finalisation loop body: season count, average finish, playoff count
and the h2h-derived win percentage. -/
def finalizeTotals (h2hData : Option H2H) (best : List (String × ℚ)) (t : Totals) :
    Totals :=
  let seasonBest := best.map (fun e => e.2)
  let seasons := seasonBest.length
  let avgFinish : ℚ := if seasons = 0 then 0 else qDiv (qSum 0 seasonBest) (seasons : ℚ)
  let playoffs := (seasonBest.filter (fun n => decide (n ≤ 4))).length
  let winPct : ℚ :=
    match h2hData with
    | none => 0
    | some d => rollWinPct d t.manager
  { t with seasons := seasons, avgFinish := avgFinish,
           playoffsMade := playoffs, winPct := winPct }

/-- The main standings comparator: points desc, gold desc, avgFinish asc,
manager name via `localeCompare`. -/
def tableCmp : Totals → Totals → Ordering :=
  cmpThen (cmpByD Totals.points)
    (cmpThen (cmpByD Totals.gold)
      (cmpThen (cmpBy Totals.avgFinish) (cmpStrBy Totals.manager)))

theorem tableCmp_laws : CmpLaws tableCmp :=
  cmpThen_laws (cmpByD_laws _)
    (cmpThen_laws (cmpByD_laws _)
      (cmpThen_laws (cmpBy_laws _) (cmpStrBy_laws _)))

/-- The Season Aggregator: the `table` memo of the roll-of-honour page. -/
def rollTable (rows : List RowMap) (h2hData : Option H2H) : List Totals :=
  let st := rows.foldl rollStep ⟨[], []⟩
  let arr := st.byMgr.map (fun e => finalizeTotals h2hData ((alistGet? st.best e.1).getD []) e.2)
  jsSort (cmpLe tableCmp) arr

/-! ### Hall of fame derivations -/

def MIN_SEASONS_FOR_AVG : Nat := 3

/-- Comparator of the championship-winners list: gold desc, points desc, name. -/
def titlesCmp : Totals → Totals → Ordering :=
  cmpThen (cmpByD Totals.gold)
    (cmpThen (cmpByD Totals.points) (cmpStrBy Totals.manager))

theorem titlesCmp_laws : CmpLaws titlesCmp :=
  cmpThen_laws (cmpByD_laws _)
    (cmpThen_laws (cmpByD_laws _) (cmpStrBy_laws _))

/-- The `hallOfFame.titles` list: champions, sorted by `titlesCmp`. -/
def hallTitles (tbl : List Totals) : List Totals :=
  if tbl.isEmpty then []
  else jsSort (cmpLe titlesCmp) (tbl.filter (fun t => decide (0 < t.gold)))

/-- Comparator of the best-average-finish list: avgFinish asc, name. -/
def bestAvgCmp : Totals → Totals → Ordering :=
  cmpThen (cmpBy Totals.avgFinish) (cmpStrBy Totals.manager)

/-- The `hallOfFame.bestAvg` list: eligible managers by average finish, top 5. -/
def hallBestAvg (tbl : List Totals) : List Totals :=
  if tbl.isEmpty then []
  else
    (jsSort (cmpLe bestAvgCmp)
      (tbl.filter (fun t => decide (MIN_SEASONS_FOR_AVG ≤ t.seasons)))).take 5

/-! ### Head-to-Head Resolver (head-to-head page) -/

/-- One oriented row of the per-opponent table. -/
structure H2HRow where
  opponent : String
  wins : ℚ
  losses : ℚ
  ties : ℚ
  pf : ℚ
  pa : ℚ
  winPct : ℚ
deriving DecidableEq

/-- Managers hidden from UI lists but included in aggregate stats. -/
def HIDDEN : List String := ["Brendan"]

def isHidden (m : String) : Bool := HIDDEN.any (fun h => decide (h = m))

/-- Build one oriented row from the target manager's perspective. -/
def mkH2HRow (opp : String) (w l t pf pa : ℚ) : H2HRow :=
  { opponent := opp, wins := w, losses := l, ties := t, pf := pf, pa := pa,
    winPct := winPctOf w l t }

/-- The body of the `for (const p of data.pairs)` loop: orient the pair from
the target's perspective and keep it only when the opponent is in `oppSet`
(all managers other than the target, hidden ones included). -/
def orientKeep (managers : List String) (manager : String) (p : Pair) : Option H2HRow :=
  let oppSet := managers.filter (fun m => decide (m ≠ manager))
  if p.a = manager then
    if oppSet.any (fun m => decide (m = p.b)) then
      some (mkH2HRow p.b p.a_wins p.b_wins p.ties p.a_points_for p.b_points_for)
    else none
  else if p.b = manager then
    if oppSet.any (fun m => decide (m = p.a)) then
      some (mkH2HRow p.a p.b_wins p.a_wins p.ties p.b_points_for p.a_points_for)
    else none
  else none

/-- Row ordering: win pct desc, games played desc, opponent name. -/
def h2hRowCmp : H2HRow → H2HRow → Ordering :=
  cmpThen (cmpByD H2HRow.winPct)
    (cmpThen (cmpByD (fun r => qAdd (qAdd r.wins r.losses) r.ties))
      (cmpStrBy H2HRow.opponent))

theorem h2hRowCmp_laws : CmpLaws h2hRowCmp :=
  cmpThen_laws (cmpByD_laws _)
    (cmpThen_laws (cmpByD_laws _) (cmpStrBy_laws _))

/-- The full per-opponent table (`table` memo), hidden opponents included. -/
def h2hTable (data : H2H) (manager : String) : List H2HRow :=
  if manager = "" then []
  else jsSort (cmpLe h2hRowCmp) (data.pairs.filterMap (orientKeep data.managers manager))

/-- The rendered table (`visibleTable` memo): hidden opponents filtered out. -/
def visibleTable (data : H2H) (manager : String) : List H2HRow :=
  if manager = "" then []
  else (h2hTable data manager).filter (fun r => !(isHidden r.opponent))

/-- The overall summary block computed from the FULL table. -/
structure H2HSummary where
  totW : ℚ
  totL : ℚ
  totT : ℚ
  pf : ℚ
  pa : ℚ
  wp : ℚ
deriving DecidableEq

/-- The `reduce` chain of the totals summary; `wp` is the same
`gp ? (totW + 0.5*totT)/gp : 0` expression as `winPctOf`. -/
def overallTotals (tbl : List H2HRow) : H2HSummary :=
  let totW := tbl.foldl (fun a r => qAdd a r.wins) 0
  let totL := tbl.foldl (fun a r => qAdd a r.losses) 0
  let totT := tbl.foldl (fun a r => qAdd a r.ties) 0
  let pf := tbl.foldl (fun a r => qAdd a r.pf) 0
  let pa := tbl.foldl (fun a r => qAdd a r.pa) 0
  { totW := totW, totL := totL, totT := totT, pf := pf, pa := pa,
    wp := winPctOf totW totL totT }

/-- The overall PCT shown on the head-to-head page for one manager. -/
def overallPct (data : H2H) (manager : String) : ℚ :=
  (overallTotals (h2hTable data manager)).wp

/-! ### Claim theorems: C1 and C2 -/

/-- Claim C1: on exactly the two finish rows Alice/2023/place 1 and
Alice/2024/place 3, with no head-to-head data, the Season Aggregator outputs
exactly one totals entry with seasons 2, gold 1, silver 0, bronze 1,
podiums 2, points 4, avgFinish 2.0, playoffsMade 2 and winPct 0. -/
theorem c1_season_aggregator_alice :
    rollTable
      [[("manager", "Alice"), ("season", "2023"), ("place", "1")],
       [("manager", "Alice"), ("season", "2024"), ("place", "3")]] none =
      [{ manager := "Alice", seasons := 2, gold := 1, silver := 0, bronze := 1,
         podiums := 2, points := 4, avgFinish := 2, playoffsMade := 2, winPct := 0 }] := by
  decide

/-- Claim C2: when the target manager is side `b` of a pair, the resolver
swaps the sides (wins = b_wins, losses = a_wins, ties kept, points-for
swapped); every oriented row carries
`winPct = (wins + 0.5*ties)/(wins+losses+ties)`, which is `0` when the game
count is `0`; in particular the pair X/Y with 3-1-1 resolved from Y's
perspective gives wins 1, losses 3, ties 1 and winPct 0.3. -/
theorem c2_h2h_resolver_swap (managers : List String) (tgt : String) (p : Pair)
    (hb : p.b = tgt) (ha : p.a ≠ tgt) :
    (∀ r, orientKeep managers tgt p = some r →
        r = { opponent := p.a, wins := p.b_wins, losses := p.a_wins, ties := p.ties,
              pf := p.b_points_for, pa := p.a_points_for,
              winPct := winPctOf p.b_wins p.a_wins p.ties })
    ∧ (∀ w l t : ℚ, winPctOf w l t =
        if w + l + t = 0 then 0 else (w + (1/2) * t) / (w + l + t))
    ∧ orientKeep ["X", "Y"] "Y" ⟨"X", "Y", 3, 1, 1, 0, 0⟩ =
        some ⟨"X", 1, 3, 1, 0, 0, (3 : ℚ)/10⟩ := by
  refine ⟨?_, winPctOf_eq, ?_⟩
  · intro r h
    unfold orientKeep at h
    rw [if_neg ha, if_pos hb] at h
    split_ifs at h with hc
    exact (Option.some.inj h).symm
  · have h310 : (3 : ℚ)/10 = Rat.divInt 3 10 := by
      rw [Rat.divInt_eq_div]
      norm_num
    rw [h310]
    decide

/-- Witness for C2 at the concrete X/Y pair of the claim. -/
theorem c2_h2h_resolver_swap_witness :
    orientKeep ["X", "Y"] "Y" ⟨"X", "Y", 3, 1, 1, 0, 0⟩ =
      some ⟨"X", 1, 3, 1, 0, 0, (3 : ℚ)/10⟩ :=
  (c2_h2h_resolver_swap ["X", "Y"] "Y" ⟨"X", "Y", 3, 1, 1, 0, 0⟩
    (by decide) (by decide)).2.2

/-! ### Ownership Tracker (waivers page `leaderboard`) -/

/-- A transaction row.  The `date` string of the JSON is modelled by its
timestamp, the value of `new Date(date).getTime()` used for sorting. -/
structure Txn where
  season : ℚ
  date : ℚ
  type : String
  player : String
  position : String
  nfl : String
  from_team : String
  to_team : String
  note : String
deriving DecidableEq

structure DraftRow where
  player : String
  position : String
  nfl : String
  manager : String
deriving DecidableEq

inductive AcqType where
  | drafted
  | waiver
  | trade
deriving DecidableEq

structure OwnedTeam where
  team : String
  type : AcqType
deriving DecidableEq

/-- The per-player accumulator of the ownership map. -/
structure MapVal where
  player : String
  position : String
  nfl : String
  drafted : Nat
  adds : Nat
  total : Nat
  owned : List OwnedTeam
deriving DecidableEq

def draftKey (d : DraftRow) : String := jsTrim d.player

/-- The body of the drafted-first loop for one draft row. -/
def draftUpd (d : DraftRow) (cur : Option MapVal) : MapVal :=
  let key := draftKey d
  let ex := cur.getD
    { player := key, position := d.position, nfl := d.nfl,
      drafted := 0, adds := 0, total := 0, owned := [] }
  let ex :=
    { ex with drafted := ex.drafted + 1, total := ex.total + 1,
              position := if ex.position = "" then d.position else ex.position,
              nfl := if ex.nfl = "" then d.nfl else ex.nfl }
  if jsTrim d.manager ≠ "" then
    { ex with owned := ⟨jsTrim d.manager, .drafted⟩ :: ex.owned }
  else ex

def draftStep (m : List (String × MapVal)) (d : DraftRow) : List (String × MapVal) :=
  if draftKey d = "" then m
  else alistSet m (draftKey d) (draftUpd d (alistGet? m (draftKey d)))

def addKey (r : Txn) : String := jsTrim r.player

/-- The body of the adds loop for one transaction row. -/
def addUpd (r : Txn) (cur : Option MapVal) : MapVal :=
  let key := addKey r
  let ex := cur.getD
    { player := key, position := r.position, nfl := r.nfl,
      drafted := 0, adds := 0, total := 0, owned := [] }
  let ex :=
    { ex with adds := ex.adds + 1, total := ex.total + 1,
              position := if ex.position = "" then r.position else ex.position,
              nfl := if ex.nfl = "" then r.nfl else ex.nfl }
  let ty : AcqType := if r.note = "Trade" then .trade else .waiver
  { ex with owned := ex.owned ++ [⟨jsTrim r.to_team, ty⟩] }

def addStep (m : List (String × MapVal)) (r : Txn) : List (String × MapVal) :=
  if addKey r = "" then m
  else alistSet m (addKey r) (addUpd r (alistGet? m (addKey r)))

/-- The filter on transaction rows before the adds fold. -/
def addsPred (r : Txn) : Bool :=
  decide (r.player ≠ "") && decide (r.type = "add") && decide (jsTrim r.to_team ≠ "")

/-- Transaction adds, filtered and sorted ascending by date. -/
def addsSorted (rows : List Txn) : List Txn :=
  jsSort (fun a b => decide (a.date ≤ b.date)) (rows.filter addsPred)

/-- The player-keyed ownership map: draft rows first, then chronological adds. -/
def ownershipMap (draft : List DraftRow) (rows : List Txn) : List (String × MapVal) :=
  (addsSorted rows).foldl addStep (draft.foldl draftStep [])

/-- Leaderboard ordering: total desc, then player name. -/
def lbCmp : MapVal → MapVal → Ordering :=
  cmpThen (cmpByD MapVal.total) (cmpStrBy MapVal.player)

theorem lbCmp_laws : CmpLaws lbCmp :=
  cmpThen_laws (cmpByD_laws _) (cmpStrBy_laws _)

/-- The search-box filter of the leaderboard. -/
def lbQueryKeep (query : String) (x : MapVal) : Bool :=
  decide (jsTrim query = "") ||
  strIncludes (jsLower x.player) (jsLower query) ||
  x.owned.any (fun o => strIncludes (jsLower o.team) (jsLower query))

/-- The Ownership Tracker output: filter by minimum total and query, sort. -/
def leaderboard (draft : List DraftRow) (rows : List Txn)
    (query : String) (minPickups : Nat) : List MapVal :=
  jsSort (cmpLe lbCmp)
    ((((ownershipMap draft rows).map (fun e => e.2)).filter
        (fun x => decide (minPickups ≤ x.total))).filter (lbQueryKeep query))

/-- Looking up one player in a keyed fold only sees the rows with that key. -/
theorem foldl_keyed_proj {ρ β : Type} (key : ρ → String) (upd : ρ → Option β → β)
    (P : String) (hP : P ≠ "") (l : List ρ) (m : List (String × β)) :
    alistGet?
        (l.foldl
          (fun m r => if key r = "" then m else alistSet m (key r) (upd r (alistGet? m (key r)))) m)
        P
      = (l.filter (fun r => decide (key r = P))).foldl
          (fun acc r => some (upd r acc)) (alistGet? m P) := by
  induction l generalizing m with
  | nil => rfl
  | cons r t ih =>
    rw [List.foldl_cons]
    by_cases hk : key r = ""
    · have hne : key r ≠ P := fun h => hP (h ▸ hk)
      rw [if_pos hk]
      rw [show List.filter (fun r => decide (key r = P)) (r :: t)
            = List.filter (fun r => decide (key r = P)) t from by
          simp [List.filter_cons, hne]]
      exact ih m
    · rw [if_neg hk]
      by_cases hkP : key r = P
      · rw [show List.filter (fun r => decide (key r = P)) (r :: t)
              = r :: List.filter (fun r => decide (key r = P)) t from by
            simp [List.filter_cons, hkP]]
        rw [ih, List.foldl_cons, hkP, alistGet?_alistSet_self]
      · rw [show List.filter (fun r => decide (key r = P)) (r :: t)
              = List.filter (fun r => decide (key r = P)) t from by
            simp [List.filter_cons, hkP]]
        rw [ih, alistGet?_alistSet_ne _ _ _ _ (fun h => hkP h.symm)]

theorem draftStep_eq :
    draftStep = fun m r =>
      if draftKey r = "" then m
      else alistSet m (draftKey r) (draftUpd r (alistGet? m (draftKey r))) := rfl

theorem addStep_eq :
    addStep = fun m r =>
      if addKey r = "" then m
      else alistSet m (addKey r) (addUpd r (alistGet? m (addKey r))) := rfl

/-- Claim C3: a player with exactly one draft row (drafted by M) and exactly
one qualifying add (to team N, note not "Trade") ends with drafted 1, adds 1,
total 2, owners `[{M, drafted}, {N, waiver}]` in that order, and appears in
the leaderboard under the default minimum of 2 and an empty query. -/
theorem c3_ownership_tracker (draft : List DraftRow) (rows : List Txn)
    (P M N : String) (d : DraftRow) (t : Txn)
    (hP : P ≠ "")
    (hd : draft.filter (fun r => decide (draftKey r = P)) = [d])
    (hM : jsTrim d.manager = M) (hMne : M ≠ "")
    (ht : (rows.filter addsPred).filter (fun r => decide (addKey r = P)) = [t])
    (hN : jsTrim t.to_team = N) (hnote : t.note ≠ "Trade") :
    ∃ v, alistGet? (ownershipMap draft rows) P = some v
      ∧ v.drafted = 1 ∧ v.adds = 1 ∧ v.total = 2
      ∧ v.owned = [⟨M, AcqType.drafted⟩, ⟨N, AcqType.waiver⟩]
      ∧ v ∈ leaderboard draft rows "" 2 := by
  have hsorted : (addsSorted rows).filter (fun r => decide (addKey r = P)) = [t] := by
    have hperm :=
      (jsSort_perm (fun a b => decide (a.date ≤ b.date)) (rows.filter addsPred)).filter
        (fun r => decide (addKey r = P))
    rw [ht] at hperm
    exact List.perm_singleton.mp hperm
  have h1 : alistGet? (List.foldl draftStep [] draft) P = some (draftUpd d none) := by
    rw [draftStep_eq, foldl_keyed_proj draftKey draftUpd P hP draft [], hd]
    rfl
  have h2 : alistGet? (ownershipMap draft rows) P
      = some (addUpd t (some (draftUpd d none))) := by
    unfold ownershipMap
    rw [addStep_eq, foldl_keyed_proj addKey addUpd P hP (addsSorted rows) _, hsorted]
    rw [List.foldl_cons, h1]
    rfl
  refine ⟨addUpd t (some (draftUpd d none)), h2, ?_, ?_, ?_, ?_, ?_⟩
  · simp [addUpd, draftUpd, hM, hMne]
  · simp [addUpd, draftUpd, hM, hMne]
  · simp [addUpd, draftUpd, hM, hMne]
  · simp [addUpd, draftUpd, hM, hN, hMne, hnote]
  · have hmem0 : (P, addUpd t (some (draftUpd d none))) ∈ ownershipMap draft rows :=
      alistGet?_mem _ _ _ h2
    have htot : (addUpd t (some (draftUpd d none))).total = 2 := by
      simp [addUpd, draftUpd, hM, hMne]
    refine (mem_jsSort _ _ _).mpr ?_
    refine List.mem_filter.mpr ⟨List.mem_filter.mpr ⟨?_, ?_⟩, ?_⟩
    · exact List.mem_map.mpr ⟨_, hmem0, rfl⟩
    · rw [htot]
      rfl
    · rfl

/-! ### Key uniqueness of the aggregation map, and the C6/C7 order theorems -/

theorem mem_alistSet_sub [DecidableEq κ] {m : List (κ × β)} {k : κ} {v : β}
    {e : κ × β} (h : e ∈ alistSet m k v) : e ∈ m ∨ e = (k, v) := by
  induction m with
  | nil =>
    simp [alistSet] at h
    exact Or.inr h
  | cons e' t ih =>
    by_cases he : e'.1 = k
    · rw [alistSet, if_pos he] at h
      rcases List.mem_cons.1 h with h | h
      · exact Or.inr h
      · exact Or.inl (List.mem_cons_of_mem _ h)
    · rw [alistSet, if_neg he] at h
      rcases List.mem_cons.1 h with h | h
      · exact Or.inl (h ▸ List.mem_cons_self e' t)
      · rcases ih h with h | h
        · exact Or.inl (List.mem_cons_of_mem _ h)
        · exact Or.inr h

theorem nodup_fst_alistSet [DecidableEq κ] {m : List (κ × β)} (k : κ) (v : β)
    (h : (m.map Prod.fst).Nodup) : ((alistSet m k v).map Prod.fst).Nodup := by
  induction m with
  | nil => simp [alistSet]
  | cons e t ih =>
    rw [List.map_cons, List.nodup_cons] at h
    by_cases he : e.1 = k
    · rw [alistSet, if_pos he]
      rw [List.map_cons, List.nodup_cons]
      exact ⟨he ▸ h.1, h.2⟩
    · rw [alistSet, if_neg he]
      rw [List.map_cons, List.nodup_cons]
      refine ⟨?_, ih h.2⟩
      intro hmem
      rcases List.mem_map.1 hmem with ⟨e', he', hfst⟩
      rcases mem_alistSet_sub he' with h' | h'
      · exact h.1 (hfst ▸ List.mem_map_of_mem Prod.fst h')
      · exact he (hfst ▸ h' ▸ rfl)

/-- The invariant of `byMgr`: every value records its own key as manager,
and keys are unique. -/
def RollInv (m : List (String × Totals)) : Prop :=
  (∀ e ∈ m, e.2.manager = e.1) ∧ (m.map Prod.fst).Nodup

theorem RollInv.set {m : List (String × Totals)} {k : String} {v : Totals}
    (h : RollInv m) (hv : v.manager = k) : RollInv (alistSet m k v) := by
  refine ⟨?_, nodup_fst_alistSet k v h.2⟩
  intro e he
  rcases mem_alistSet_sub he with h' | h'
  · exact h.1 e h'
  · rw [h']
    exact hv

theorem placeUpd_manager (p : ℚ) (t : Totals) : (placeUpd p t).manager = t.manager := by
  unfold placeUpd
  split_ifs <;> rfl

theorem RollInv.lookup_manager {m : List (String × Totals)} (h : RollInv m)
    (k : String) : ((alistGet? m k).getD (initTotals k)).manager = k := by
  cases hg : alistGet? m k with
  | none => rfl
  | some t => exact h.1 (k, t) (alistGet?_mem m k t hg)

theorem rollStep_inv (st : RollState) (r : RowMap) (h : RollInv st.byMgr) :
    RollInv (rollStep st r).byMgr := by
  unfold rollStep
  cases hp : (alistGet? r "place").bind jsNumberFinite with
  | none => exact h
  | some p =>
    dsimp only
    split
    · exact h
    · by_cases hknown : (alistGet? st.byMgr (jsTrim ((alistGet? r "manager").getD ""))).isSome
      all_goals
        simp only [hknown, if_true, if_false, Bool.false_eq_true]
      · exact RollInv.set h ((placeUpd_manager _ _).trans (h.lookup_manager _))
      · have h2 : RollInv (alistSet st.byMgr (jsTrim ((alistGet? r "manager").getD ""))
            (initTotals (jsTrim ((alistGet? r "manager").getD "")))) :=
          RollInv.set h rfl
        exact RollInv.set h2 ((placeUpd_manager _ _).trans (h2.lookup_manager _))

theorem rollFold_inv (rows : List RowMap) :
    RollInv ((rows.foldl rollStep ⟨[], []⟩).byMgr) := by
  suffices h : ∀ st : RollState, RollInv st.byMgr → RollInv ((rows.foldl rollStep st).byMgr) by
    exact h ⟨[], []⟩ ⟨by simp, by simp⟩
  induction rows with
  | nil => exact fun st hst => hst
  | cons r t ih =>
    intro st hst
    rw [List.foldl_cons]
    exact ih _ (rollStep_inv st r hst)

theorem finalizeTotals_manager (h2hData : Option H2H) (best : List (String × ℚ))
    (t : Totals) : (finalizeTotals h2hData best t).manager = t.manager := rfl

theorem tableCmp_eq_manager {a b : Totals} (h : tableCmp a b = .eq) :
    a.manager = b.manager := by
  unfold tableCmp cmpThen at h
  rcases thenCmb_eq_eq.1 h with ⟨_, h⟩
  rcases thenCmb_eq_eq.1 h with ⟨_, h⟩
  rcases thenCmb_eq_eq.1 h with ⟨_, h⟩
  exact (localeCmp_eq_iff _ _).1 h

theorem rollTable_cmp_eq (rows : List RowMap) (h2hData : Option H2H) :
    ∀ a ∈ rollTable rows h2hData, ∀ b ∈ rollTable rows h2hData,
      tableCmp a b = .eq → a = b := by
  intro a ha b hb hcmp
  unfold rollTable at ha hb
  rw [mem_jsSort] at ha hb
  rcases List.mem_map.1 ha with ⟨e₁, he₁, hae⟩
  rcases List.mem_map.1 hb with ⟨e₂, he₂, hbe⟩
  have hinv := rollFold_inv rows
  have ha1 : a.manager = e₁.1 := by
    rw [← hae, finalizeTotals_manager]
    exact hinv.1 e₁ he₁
  have hb1 : b.manager = e₂.1 := by
    rw [← hbe, finalizeTotals_manager]
    exact hinv.1 e₂ he₂
  have hkey : e₁.1 = e₂.1 := by
    rw [← ha1, ← hb1]
    exact tableCmp_eq_manager hcmp
  have he : e₁ = e₂ := List.inj_on_of_nodup_map hinv.2 he₁ he₂ hkey
  rw [← hae, ← hbe, he]

/-- Claim C7: the Season Aggregator output is sorted by the comparator
points desc, gold desc, avgFinish asc, manager name (that is `tableCmp`),
and this comparator never declares two distinct output entries equal,
because manager names are unique keys of the output. -/
theorem c7_output_total_order (rows : List RowMap) (h2hData : Option H2H) :
    (rollTable rows h2hData).Pairwise (fun a b => tableCmp a b ≠ Ordering.gt)
    ∧ (∀ a ∈ rollTable rows h2hData, ∀ b ∈ rollTable rows h2hData,
        a ≠ b → tableCmp a b ≠ Ordering.eq) := by
  constructor
  · have h := jsSort_pairwise_cmp tableCmp_laws
      ((rows.foldl rollStep ⟨[], []⟩).byMgr.map
        (fun e => finalizeTotals h2hData
          ((alistGet? (rows.foldl rollStep ⟨[], []⟩).best e.1).getD []) e.2))
    exact h.imp (fun hx => (cmpLe_iff _ _ _).1 hx)
  · intro a ha b hb hne hcmp
    exact hne (rollTable_cmp_eq rows h2hData a ha b hb hcmp)

/-- Witness for C7 at a two-manager input. -/
theorem c7_output_total_order_witness :
    tableCmp
        ⟨"Alice", 1, 1, 0, 0, 1, 3, 1, 1, 0⟩
        ⟨"Bob", 1, 0, 1, 0, 1, 2, 2, 1, 0⟩ ≠ Ordering.eq :=
  (c7_output_total_order
      [[("manager", "Alice"), ("season", "2023"), ("place", "1")],
       [("manager", "Bob"), ("season", "2023"), ("place", "2")]] none).2
    ⟨"Alice", 1, 1, 0, 0, 1, 3, 1, 1, 0⟩ (by decide)
    ⟨"Bob", 1, 0, 1, 0, 1, 2, 2, 1, 0⟩ (by decide) (by decide)

/-- The finishes input of the C6 counterexample: Paula has 1 gold and
2 silvers (7 points), Quinn has 2 golds (6 points). -/
def c6rows : List RowMap :=
  [[("manager", "Paula"), ("season", "2023"), ("place", "1")],
   [("manager", "Paula"), ("season", "2024"), ("place", "2")],
   [("manager", "Paula"), ("season", "2025"), ("place", "2")],
   [("manager", "Quinn"), ("season", "2023"), ("place", "1")],
   [("manager", "Quinn"), ("season", "2024"), ("place", "1")]]

/-- Counterexample to C6: the title-holders list is NOT sorted by the main
standings comparator.  On `c6rows` the code yields Quinn (6 points, 2 golds)
before Paula (7 points, 1 gold), because `hallOfFame.titles` sorts by gold
count first, while the main standings order puts Paula first. -/
theorem c6_counterexample :
    ¬ (hallTitles (rollTable c6rows none)).Pairwise
        (fun a b => tableCmp a b ≠ Ordering.gt) := by
  decide

/-- Claim C6 as amended: the title-holders list contains exactly the managers
with gold > 0, and is sorted by gold desc, then points desc, then manager
name (`titlesCmp`) — not by the main standings comparator. -/
theorem c6_hall_titles (rows : List RowMap) (h2hData : Option H2H) :
    (∀ t, t ∈ hallTitles (rollTable rows h2hData) ↔
        t ∈ rollTable rows h2hData ∧ 0 < t.gold)
    ∧ (hallTitles (rollTable rows h2hData)).Pairwise
        (fun a b => titlesCmp a b ≠ Ordering.gt) := by
  unfold hallTitles
  by_cases hem : (rollTable rows h2hData).isEmpty
  · rw [if_pos hem]
    rw [List.isEmpty_iff] at hem
    simp [hem]
  · rw [if_neg hem]
    constructor
    · intro t
      rw [mem_jsSort, List.mem_filter]
      simp
    · exact (jsSort_pairwise_cmp titlesCmp_laws _).imp (fun hx => (cmpLe_iff _ _ _).1 hx)

/-! ### Record-Breaker Normalizer (record-breakers page)

Text normalization mirrors `normalizeCell`: lowercase, trim, unify dash
variants, strip the word "all time", strip a trailing "season YYYY" tag,
collapse whitespace.  The regex scanners are implemented on character lists
(with a fuel argument where the regex engine restarts after a match). -/

def isWordChar (c : Char) : Bool :=
  (97 ≤ c.toNat && c.toNat ≤ 122) || (65 ≤ c.toNat && c.toNat ≤ 90) ||
  (48 ≤ c.toNat && c.toNat ≤ 57) || c == '_'

def jsTrimL (l : List Char) : List Char :=
  ((l.dropWhile isJsSpace).reverse.dropWhile isJsSpace).reverse

/-- The four dash variants of `dashRe`, each replaced by a plain hyphen. -/
def dashReplace (l : List Char) : List Char :=
  l.map (fun c =>
    if c.toNat == 0x2012 || c.toNat == 0x2013 || c.toNat == 0x2014 || c.toNat == 0x2212
    then '-' else c)

/-- The character class of `punctRe` (U+2010 through U+2014). -/
def isPunctDash (c : Char) : Bool := 0x2010 ≤ c.toNat && c.toNat ≤ 0x2014

/-- Collapse each run of `punctRe` characters into one hyphen. -/
def collapsePunctAux : List Char → Bool → List Char
  | [], _ => []
  | c :: rest, inRun =>
    if isPunctDash c then
      if inRun then collapsePunctAux rest true
      else '-' :: collapsePunctAux rest true
    else c :: collapsePunctAux rest false

def collapsePunct (l : List Char) : List Char := collapsePunctAux l false

/-- Collapse each whitespace run into one space (`multiSpaceRe`). -/
def collapseWsAux : List Char → Bool → List Char
  | [], _ => []
  | c :: rest, inRun =>
    if isJsSpace c then
      if inRun then collapseWsAux rest true
      else ' ' :: collapseWsAux rest true
    else c :: collapseWsAux rest false

def collapseWs (l : List Char) : List Char := collapseWsAux l false

/-- Try to match `\ball\s*time\b` at the head of `l` (the before-boundary is
checked by the caller); returns the remainder after the match. -/
def matchAllTimeAt : List Char → Option (List Char)
  | 'a' :: 'l' :: 'l' :: rest =>
    match rest.dropWhile isJsSpace with
    | 't' :: 'i' :: 'm' :: 'e' :: rest3 =>
      match rest3 with
      | [] => some []
      | c :: _ => if isWordChar c then none else some rest3
    | _ => none
  | _ => none

/-- Global replacement of `\ball\s*time\b` by the empty string; the scan
resumes after each match, as the regex engine does. -/
def stripAllTimeAux : Nat → Bool → List Char → List Char
  | 0, _, l => l
  | _ + 1, _, [] => []
  | fuel + 1, prevWord, c :: rest =>
    if prevWord then c :: stripAllTimeAux fuel (isWordChar c) rest
    else
      match matchAllTimeAt (c :: rest) with
      | some rest3 => stripAllTimeAux fuel true rest3
      | none => c :: stripAllTimeAux fuel (isWordChar c) rest

def stripAllTime (l : List Char) : List Char := stripAllTimeAux (l.length + 1) false l

/-- Strip a trailing `\s*(,|-)?\s*season\s+\d{4}\s*` suffix, scanning from
the right end of the string. -/
def stripSeasonTag (l : List Char) : List Char :=
  match (l.reverse).dropWhile isJsSpace with
  | d1 :: d2 :: d3 :: d4 :: r2 =>
    if isDigitB d1 && isDigitB d2 && isDigitB d3 && isDigitB d4 then
      match r2 with
      | c :: _ =>
        if isJsSpace c then
          match r2.dropWhile isJsSpace with
          | 'n' :: 'o' :: 's' :: 'a' :: 'e' :: 's' :: r4 =>
            let r5 := r4.dropWhile isJsSpace
            let r6 :=
              match r5 with
              | c2 :: t2 => if c2 == ',' || c2 == '-' then t2 else r5
              | [] => r5
            (r6.dropWhile isJsSpace).reverse
          | _ => l
        else l
      | [] => l
    else l
  | _ => l

/-- The `normalizeCell` canonicalizer of the record-breakers page. -/
def normalizeCell (val : String) : String :=
  let l := (jsTrim (jsLower val)).toList
  let l := collapsePunct (dashReplace l)
  let l := stripSeasonTag (stripAllTime l)
  (jsTrimL (collapseWs l)).asString

/-- One numeric token `-?\d+(\.\d+)?` with its remainder, starting exactly
at the head of the list. -/
def numTokenAt : List Char → Option (List Char × List Char)
  | '-' :: rest =>
    match rest.takeWhile isDigitB with
    | [] => none
    | ds =>
      match rest.dropWhile isDigitB with
      | '.' :: r2 =>
        match r2.takeWhile isDigitB with
        | [] => some ('-' :: ds, rest.dropWhile isDigitB)
        | fs => some ('-' :: ds ++ '.' :: fs, r2.dropWhile isDigitB)
      | r2 => some ('-' :: ds, r2)
  | l@(c :: _) =>
    if isDigitB c then
      let ds := l.takeWhile isDigitB
      match l.dropWhile isDigitB with
      | '.' :: r2 =>
        match r2.takeWhile isDigitB with
        | [] => some (ds, l.dropWhile isDigitB)
        | fs => some (ds ++ '.' :: fs, r2.dropWhile isDigitB)
      | r2 => some (ds, r2)
    else none
  | [] => none

/-- All matches of the global regex, scanning left to right and resuming
after each match. -/
def numMatchesAux : Nat → List Char → List (List Char)
  | 0, _ => []
  | _ + 1, [] => []
  | fuel + 1, l@(_ :: t) =>
    match numTokenAt l with
    | some (tok, rest) => tok :: numMatchesAux fuel rest
    | none => numMatchesAux fuel t

def numMatches (l : List Char) : List (List Char) := numMatchesAux (l.length + 1) l

/-- The rational value of one matched numeric token. -/
def ratOfUnsigned (l : List Char) : ℚ :=
  let ip := l.takeWhile isDigitB
  match l.dropWhile isDigitB with
  | '.' :: fs => qAdd (natOfDigits ip : ℚ) (qDiv (natOfDigits fs : ℚ) (qTenPow fs.length))
  | _ => (natOfDigits ip : ℚ)

def ratOfToken (tok : List Char) : ℚ :=
  match tok with
  | '-' :: rest => qNeg (ratOfUnsigned rest)
  | rest => ratOfUnsigned rest

/-! ### Record data model and the two modes -/

structure RecordSection where
  sectionTitle : String
  headers : List String
  rows : List RowMap
deriving DecidableEq

/-- One year's categories; an absent category is the empty list. -/
structure YearData where
  head_to_head : List RecordSection
  team_points : List RecordSection
  team_stats : List RecordSection
deriving DecidableEq

/-- The `years` object, in its iteration order (ascending integer-like keys). -/
abbrev RecordsData := List (String × YearData)

inductive SeasonalKey where
  | head_to_head
  | team_points
  | team_stats
deriving DecidableEq

def YearData.get (yd : YearData) : SeasonalKey → List RecordSection
  | .head_to_head => yd.head_to_head
  | .team_points => yd.team_points
  | .team_stats => yd.team_stats

/-- The fixed list of globally removed section-name patterns. -/
def shouldExcludeSection (sectionName : String) : Bool :=
  let s := jsLower (jsTrim sectionName)
  strIncludes s "points from draft players" ||
  strIncludes s "points from drafted players" ||
  ((strIncludes s "points from waiver-wire pickups" ||
      strIncludes s "points from waiver wire pickups") && strIncludes s "least") ||
  (strIncludes s "kicking points" && strIncludes s "least") ||
  (strIncludes s "defensive points" && strIncludes s "least") ||
  (strIncludes s "touchdowns" && strIncludes s "least") ||
  (strIncludes s "passing yards" && strIncludes s "least") ||
  (strIncludes s "rushing yards" && strIncludes s "least") ||
  (strIncludes s "receiving yards" && strIncludes s "least") ||
  (strIncludes s "field goals" && strIncludes s "least") ||
  (strIncludes s "post-draft" && strIncludes s "least") ||
  (strIncludes s "field goals" && strIncludes s "most") ||
  strIncludes s "margin of defeat"

/-- A row is tagged all-time when any cell contains "all time". -/
def hasAllTimeTag (row : RowMap) : Bool :=
  row.any (fun e => strIncludes (jsLower e.2) "all time")

/-- `r[headers[0]] ?? r["Record"] ?? ""`. -/
def firstColVal (headers : List String) (r : RowMap) : String :=
  ((headers.head?.bind (fun h => alistGet? r h)).orElse (fun _ => alistGet? r "Record")).getD ""

/-- All numeric substrings of the last column, joined by `|`. -/
def extractNumericSignature (headers : List String) (r : RowMap) : String :=
  match headers.getLast? with
  | none => ""
  | some lastH =>
    String.intercalate "|" ((numMatches ((alistGet? r lastH).getD "").toList).map List.asString)

/-- The first numeric substring of the last column, as a number. -/
def numericFromRow (headers : List String) (r : RowMap) : Option ℚ :=
  match headers.getLast? with
  | none => none
  | some lastH =>
    match numMatches ((alistGet? r lastH).getD "").toList with
    | [] => none
    | tok :: _ => some (ratOfToken tok)

/-! ### Section ordering -/

def ORDER_PATTERNS : List (List String) :=
  [["win"],
   ["loss"],
   ["team points", "most"],
   ["touchdowns", "most"],
   ["rushing", "most"],
   ["receiving", "most"],
   ["passing", "most"],
   ["offensive points", "most"],
   ["margin of victory", "largest"],
   ["strength of schedule", "hardest"],
   ["team points", "least"],
   ["offensive points", "least"],
   ["margin of victory", "smallest"],
   ["kicking points", "most"],
   ["defensive points", "most"],
   ["strength of schedule", "easiest"]]

def rankSectionAux (t : String) : Nat → List (List String) → Nat
  | _, [] => 10000
  | i, tokens :: rest =>
    if tokens.all (fun tok => strIncludes t tok) then
      if (tokens = ["win"] ∨ tokens = ["loss"]) && strIncludes t "margin of victory" then
        rankSectionAux t (i + 1) rest
      else i
    else rankSectionAux t (i + 1) rest

def rankSection (title : String) : Nat :=
  rankSectionAux (normalizeCell title) 0 ORDER_PATTERNS

def sectionCmp (a b : RecordSection) : Ordering :=
  (cmpAsc (rankSection a.sectionTitle) (rankSection b.sectionTitle)).then
    (localeCmp a.sectionTitle b.sectionTitle)

/-! ### All-time mode -/

/-- Push one tagged row into the by-title map (`bySection`). -/
def atPush (m : List (String × (List String × List RowMap))) (title : String)
    (headers : List String) (r : RowMap) : List (String × (List String × List RowMap)) :=
  match alistGet? m title with
  | none => alistSet m title (headers, [r])
  | some (hs, rows) => alistSet m title (hs, rows ++ [r])

/-- Collect the all-time-tagged rows of every non-excluded section of every
year, grouped by section title. -/
def collectAllTime (data : RecordsData) : List (String × (List String × List RowMap)) :=
  data.foldl (fun m yd =>
    [SeasonalKey.head_to_head, SeasonalKey.team_points, SeasonalKey.team_stats].foldl
      (fun m key =>
        (yd.2.get key).foldl (fun m sec =>
          if shouldExcludeSection sec.sectionTitle then m
          else (sec.rows.filter hasAllTimeTag).foldl
            (fun m r => atPush m sec.sectionTitle sec.headers r) m) m) m) []

/-- Does the group keep the minimal value rather than the maximal? -/
def keepMinTitle (secNorm : String) : Bool :=
  strIncludes secNorm "least" || strIncludes secNorm "easiest" || strIncludes secNorm "smallest"

/-- The dedup group key of a row: normalized title + "::" + normalized
first column. -/
def groupKey (title : String) (headers : List String) (r : RowMap) : String :=
  normalizeCell title ++ "::" ++ normalizeCell (firstColVal headers r)

/-- One step of the `byRecord` best-per-group fold. -/
def bestStep (keepMin : Bool) (secNorm : String) (headers : List String)
    (m : List (String × (RowMap × ℚ))) (r : RowMap) : List (String × (RowMap × ℚ)) :=
  let team := normalizeCell (firstColVal headers r)
  match numericFromRow headers r with
  | none => m
  | some v =>
    let key := secNorm ++ "::" ++ team
    match alistGet? m key with
    | none => alistSet m key (r, v)
    | some rv =>
      if (¬keepMin ∧ rv.2 < v) ∨ (keepMin ∧ v < rv.2) then alistSet m key (r, v) else m

/-- The `byRecord` map of one all-time section. -/
def byRecordFold (title : String) (headers : List String) (rows : List RowMap) :
    List (String × (RowMap × ℚ)) :=
  rows.foldl (bestStep (keepMinTitle (normalizeCell title)) (normalizeCell title) headers) []

/-- The all-time mode output (`allTimeSections`). -/
def allTimeSections (data : RecordsData) : List RecordSection :=
  let out := (collectAllTime data).foldl (fun out e =>
    let deduped := (byRecordFold e.1 e.2.1 e.2.2).map (fun kv => kv.2.1)
    if deduped.isEmpty then out else out ++ [⟨e.1, e.2.1, deduped⟩]) []
  jsSort (cmpLe sectionCmp) out

/-! ### Seasonal mode -/

/-- The column used as the record-holder component of the dedup signature:
the first header containing "holder", else the literal key "Record Holder". -/
def holderKey (headers : List String) : String :=
  (headers.find? (fun h => strIncludes (jsLower h) "holder")).getD "Record Holder"

/-- The composite dedup signature of seasonal mode. -/
def seasonalSig (title : String) (headers : List String) (r : RowMap) : String :=
  normalizeCell title ++ " :: " ++
  normalizeCell (firstColVal headers r) ++ " :: " ++
  extractNumericSignature headers r ++ " :: " ++
  normalizeCell ((alistGet? r (holderKey headers)).getD "")

/-- First-occurrence-wins dedup with a seen-set of signatures. -/
def dedupFirstBy (sig : RowMap → String) : List String → List RowMap → List RowMap
  | _, [] => []
  | seen, r :: rest =>
    if sig r ∈ seen then dedupFirstBy sig seen rest
    else r :: dedupFirstBy sig (sig r :: seen) rest

/-- The seasonal-mode output (`seasonalSections`). -/
def seasonalSections (data : RecordsData) (mode : SeasonalKey) (year : String) :
    List RecordSection :=
  if year = "" then []
  else
    match alistGet? data year with
    | none => []
    | some yd =>
      let out := (yd.get mode).foldl (fun out sec =>
        if shouldExcludeSection sec.sectionTitle then out
        else
          let rows := sec.rows.filter (fun r => !(hasAllTimeTag r))
          if rows.isEmpty then out
          else out ++ [⟨sec.sectionTitle, sec.headers,
            dedupFirstBy (seasonalSig sec.sectionTitle sec.headers) [] rows⟩]) []
      jsSort (cmpLe sectionCmp) out

/-! ### C4: the all-time dedup keeps exactly the best row per group -/

/-- "v is at least as good as v'": minimal in a least/easiest/smallest
section, maximal otherwise. -/
def cmpOK (km : Bool) (v v' : ℚ) : Prop := if km then v ≤ v' else v' ≤ v

theorem bestStep_none {km : Bool} {sn : String} {headers : List String}
    {m : List (String × (RowMap × ℚ))} {r : RowMap}
    (h : numericFromRow headers r = none) : bestStep km sn headers m r = m := by
  simp only [bestStep, h]

theorem bestStep_some {km : Bool} {sn : String} {headers : List String}
    {m : List (String × (RowMap × ℚ))} {r : RowMap} {v : ℚ}
    (h : numericFromRow headers r = some v) :
    bestStep km sn headers m r =
      match alistGet? m (sn ++ "::" ++ normalizeCell (firstColVal headers r)) with
      | none => alistSet m (sn ++ "::" ++ normalizeCell (firstColVal headers r)) (r, v)
      | some rv =>
        if (¬km ∧ rv.2 < v) ∨ (km ∧ v < rv.2)
        then alistSet m (sn ++ "::" ++ normalizeCell (firstColVal headers r)) (r, v)
        else m := by
  simp only [bestStep, h]

/-- Characterization of the best-per-group fold: a looked-up entry is a row
of the input with that group key whose value beats every other parseable
value of the group, and every parseable row makes its group key present. -/
theorem bestFold_char (km : Bool) (sn : String) (headers : List String)
    (rows : List RowMap) :
    (∀ k r v,
      alistGet? (rows.foldl (bestStep km sn headers) []) k = some (r, v) →
        r ∈ rows ∧ numericFromRow headers r = some v
          ∧ sn ++ "::" ++ normalizeCell (firstColVal headers r) = k
          ∧ ∀ r' ∈ rows, sn ++ "::" ++ normalizeCell (firstColVal headers r') = k →
              ∀ v', numericFromRow headers r' = some v' → cmpOK km v v')
    ∧ (∀ r ∈ rows, ∀ v, numericFromRow headers r = some v →
        (alistGet? (rows.foldl (bestStep km sn headers) [])
          (sn ++ "::" ++ normalizeCell (firstColVal headers r))).isSome = true) := by
  induction rows using List.reverseRecOn with
  | nil =>
    constructor
    · intro k r v h
      simp [alistGet?] at h
    · intro r hr
      simp at hr
  | append_singleton rows r₀ ih =>
    have hfold : (rows ++ [r₀]).foldl (bestStep km sn headers) []
        = bestStep km sn headers (rows.foldl (bestStep km sn headers) []) r₀ := by
      rw [List.foldl_append, List.foldl_cons, List.foldl_nil]
    rcases ih with ⟨ihA, ihB⟩
    cases hnum : numericFromRow headers r₀ with
    | none =>
      rw [hfold, bestStep_none hnum]
      constructor
      · intro k r v h
        rcases ihA k r v h with ⟨hmem, hn, hk, hopt⟩
        refine ⟨List.mem_append_left _ hmem, hn, hk, ?_⟩
        intro r' hr' hk' v' hn'
        rcases List.mem_append.1 hr' with hr' | hr'
        · exact hopt r' hr' hk' v' hn'
        · rw [List.mem_singleton.1 hr'] at hn'
          rw [hnum] at hn'
          cases hn'
      · intro r hr v hn
        rcases List.mem_append.1 hr with hr | hr
        · exact ihB r hr v hn
        · rw [List.mem_singleton.1 hr] at hn
          rw [hnum] at hn
          cases hn
    | some v₀ =>
      have hkey₀ :
          sn ++ "::" ++ normalizeCell (firstColVal headers r₀)
            = sn ++ "::" ++ normalizeCell (firstColVal headers r₀) := rfl
      cases hcur : alistGet? (rows.foldl (bestStep km sn headers) [])
          (sn ++ "::" ++ normalizeCell (firstColVal headers r₀)) with
      | none =>
        have hm' : (rows ++ [r₀]).foldl (bestStep km sn headers) []
            = alistSet (rows.foldl (bestStep km sn headers) [])
                (sn ++ "::" ++ normalizeCell (firstColVal headers r₀)) (r₀, v₀) := by
          rw [hfold, bestStep_some hnum, hcur]
        constructor
        · intro k r v h
          rw [hm'] at h
          by_cases hk : k = sn ++ "::" ++ normalizeCell (firstColVal headers r₀)
          · rw [hk, alistGet?_alistSet_self] at h
            have hrv : r = r₀ ∧ v = v₀ := by
              have h2 := Option.some.inj h
              exact ⟨(congrArg Prod.fst h2).symm, (congrArg Prod.snd h2).symm⟩
            rcases hrv with ⟨hr, hv⟩
            refine ⟨?_, ?_, ?_, ?_⟩
            · rw [hr]
              exact List.mem_append_right _ (List.mem_singleton_self r₀)
            · rw [hr, hv]
              exact hnum
            · rw [hr]
              exact hk.symm
            · intro r' hr' hk' v' hn'
              rcases List.mem_append.1 hr' with hr' | hr'
              · exfalso
                have hb := ihB r' hr' v' hn'
                have hcur2 : alistGet? (rows.foldl (bestStep km sn headers) [])
                    (sn ++ "::" ++ normalizeCell (firstColVal headers r')) = none := by
                  rw [hk'.trans hk]
                  exact hcur
                rw [hcur2] at hb
                cases hb
              · rw [List.mem_singleton.1 hr'] at hn'
                rw [hnum] at hn'
                have hv' : v₀ = v' := Option.some.inj hn'
                rw [hv, ← hv']
                unfold cmpOK
                split <;> exact le_refl v₀
          · rw [alistGet?_alistSet_ne _ _ _ _ hk] at h
            rcases ihA k r v h with ⟨hmem, hn, hkk, hopt⟩
            refine ⟨List.mem_append_left _ hmem, hn, hkk, ?_⟩
            intro r' hr' hk' v' hn'
            rcases List.mem_append.1 hr' with hr' | hr'
            · exact hopt r' hr' hk' v' hn'
            · exfalso
              rw [List.mem_singleton.1 hr'] at hk'
              exact hk (hk'.symm)
        · intro r hr v hn
          rw [hm']
          rcases List.mem_append.1 hr with hr | hr
          · by_cases hk : sn ++ "::" ++ normalizeCell (firstColVal headers r)
                = sn ++ "::" ++ normalizeCell (firstColVal headers r₀)
            · rw [hk, alistGet?_alistSet_self]
              rfl
            · rw [alistGet?_alistSet_ne _ _ _ _ hk]
              exact ihB r hr v hn
          · rw [List.mem_singleton.1 hr, alistGet?_alistSet_self]
            rfl
      | some rv =>
        rcases ihA _ rv.1 rv.2 (by rw [hcur]) with ⟨hmem₁, hn₁, hk₁, hopt₁⟩
        by_cases hbet : (¬km ∧ rv.2 < v₀) ∨ (km ∧ v₀ < rv.2)
        · have hm' : (rows ++ [r₀]).foldl (bestStep km sn headers) []
              = alistSet (rows.foldl (bestStep km sn headers) [])
                  (sn ++ "::" ++ normalizeCell (firstColVal headers r₀)) (r₀, v₀) := by
            rw [hfold, bestStep_some hnum, hcur]
            exact if_pos hbet
          constructor
          · intro k r v h
            rw [hm'] at h
            by_cases hk : k = sn ++ "::" ++ normalizeCell (firstColVal headers r₀)
            · rw [hk, alistGet?_alistSet_self] at h
              have hrv : r = r₀ ∧ v = v₀ := by
                have h2 := Option.some.inj h
                exact ⟨(congrArg Prod.fst h2).symm, (congrArg Prod.snd h2).symm⟩
              rcases hrv with ⟨hr, hv⟩
              refine ⟨?_, ?_, ?_, ?_⟩
              · rw [hr]
                exact List.mem_append_right _ (List.mem_singleton_self r₀)
              · rw [hr, hv]
                exact hnum
              · rw [hr]
                exact hk.symm
              · intro r' hr' hk' v' hn'
                rw [hv]
                rcases List.mem_append.1 hr' with hr' | hr'
                · have hov' : cmpOK km rv.2 v' := hopt₁ r' hr' (hk'.trans hk) v' hn'
                  unfold cmpOK at hov' ⊢
                  rcases hbet with ⟨hkm, hlt⟩ | ⟨hkm, hlt⟩
                  · rw [if_neg hkm] at hov' ⊢
                    exact hov'.trans hlt.le
                  · rw [if_pos hkm] at hov' ⊢
                    exact hlt.le.trans hov'
                · rw [List.mem_singleton.1 hr'] at hn'
                  rw [hnum] at hn'
                  have hv' : v₀ = v' := Option.some.inj hn'
                  rw [← hv']
                  unfold cmpOK
                  split <;> exact le_refl v₀
            · rw [alistGet?_alistSet_ne _ _ _ _ hk] at h
              rcases ihA k r v h with ⟨hmem, hn, hkk, hopt⟩
              refine ⟨List.mem_append_left _ hmem, hn, hkk, ?_⟩
              intro r' hr' hk' v' hn'
              rcases List.mem_append.1 hr' with hr' | hr'
              · exact hopt r' hr' hk' v' hn'
              · exfalso
                rw [List.mem_singleton.1 hr'] at hk'
                exact hk (hk'.symm)
          · intro r hr v hn
            rw [hm']
            rcases List.mem_append.1 hr with hr | hr
            · by_cases hk : sn ++ "::" ++ normalizeCell (firstColVal headers r)
                  = sn ++ "::" ++ normalizeCell (firstColVal headers r₀)
              · rw [hk, alistGet?_alistSet_self]
                rfl
              · rw [alistGet?_alistSet_ne _ _ _ _ hk]
                exact ihB r hr v hn
            · rw [List.mem_singleton.1 hr, alistGet?_alistSet_self]
              rfl
        · have hm' : (rows ++ [r₀]).foldl (bestStep km sn headers) []
              = rows.foldl (bestStep km sn headers) [] := by
            rw [hfold, bestStep_some hnum, hcur]
            exact if_neg hbet
          constructor
          · intro k r v h
            rw [hm'] at h
            rcases ihA k r v h with ⟨hmem, hn, hkk, hopt⟩
            refine ⟨List.mem_append_left _ hmem, hn, hkk, ?_⟩
            intro r' hr' hk' v' hn'
            rcases List.mem_append.1 hr' with hr' | hr'
            · exact hopt r' hr' hk' v' hn'
            · rw [List.mem_singleton.1 hr'] at hn' hk'
              rw [hnum] at hn'
              have hv' : v₀ = v' := Option.some.inj hn'
              have hkeq : k = sn ++ "::" ++ normalizeCell (firstColVal headers r₀) := hk'.symm
              have hrv : (r, v) = rv := by
                have hcur' := hcur
                rw [← hkeq] at hcur'
                rw [h] at hcur'
                exact Option.some.inj hcur'
              have hv₁ : v = rv.2 := congrArg Prod.snd hrv
              rw [← hv', hv₁]
              unfold cmpOK
              push_neg at hbet
              by_cases hkm : km = true
              · rw [if_pos hkm]
                exact hbet.2 hkm
              · rw [if_neg hkm]
                exact hbet.1 (by simpa using hkm)
          · intro r hr v hn
            rw [hm']
            rcases List.mem_append.1 hr with hr | hr
            · exact ihB r hr v hn
            · rw [List.mem_singleton.1 hr]
              rw [List.mem_singleton.1 hr] at hn
              by_cases hk : sn ++ "::" ++ normalizeCell (firstColVal headers r₀)
                  = sn ++ "::" ++ normalizeCell (firstColVal headers r₀)
              · rw [hcur]
                rfl
              · exact absurd rfl hk

/-- Concrete all-time data of claim C4: two tagged rows for entrant A with
values 42 and 50, under a "most" section and a "least" section. -/
def c4data : RecordsData :=
  [("2024", { head_to_head := [],
              team_points := [
                ⟨"Most Points", ["Team", "Tag", "Points"],
                  [[("Team", "A"), ("Tag", "All Time"), ("Points", "42")],
                   [("Team", "A"), ("Tag", "All Time"), ("Points", "50")]]⟩,
                ⟨"Least Points", ["Team", "Tag", "Points"],
                  [[("Team", "A"), ("Tag", "All Time"), ("Points", "42")],
                   [("Team", "A"), ("Tag", "All Time"), ("Points", "50")]]⟩],
              team_stats := [] })]

/-- Claim C4: within each all-time dedup group (normalized title +
normalized first column) exactly one row survives — one of the group whose
first numeric of the last column is maximal (minimal under least/easiest/
smallest titles); rows with no parseable numeric are dropped, and every
parseable row makes its group present.  The concrete 42/50 rows collapse to
50 under "Most Points" and to 42 under "Least Points". -/
theorem c4_alltime_dedup_best (title : String) (headers : List String)
    (rows : List RowMap) :
    (∀ k r v, alistGet? (byRecordFold title headers rows) k = some (r, v) →
        r ∈ rows ∧ numericFromRow headers r = some v
          ∧ groupKey title headers r = k
          ∧ ∀ r' ∈ rows, groupKey title headers r' = k →
              ∀ v', numericFromRow headers r' = some v' →
                cmpOK (keepMinTitle (normalizeCell title)) v v')
    ∧ (∀ r ∈ rows, ∀ v, numericFromRow headers r = some v →
        (alistGet? (byRecordFold title headers rows)
          (groupKey title headers r)).isSome = true)
    ∧ allTimeSections c4data =
        [⟨"Least Points", ["Team", "Tag", "Points"],
          [[("Team", "A"), ("Tag", "All Time"), ("Points", "42")]]⟩,
         ⟨"Most Points", ["Team", "Tag", "Points"],
          [[("Team", "A"), ("Tag", "All Time"), ("Points", "50")]]⟩] := by
  refine ⟨?_, ?_, by decide⟩
  · exact (bestFold_char (keepMinTitle (normalizeCell title))
      (normalizeCell title) headers rows).1
  · exact (bestFold_char (keepMinTitle (normalizeCell title))
      (normalizeCell title) headers rows).2

/-- Witness for C4: under "Most Points" the kept entry of group
"most points::a" is the 50 row. -/
theorem c4_alltime_dedup_best_witness :
    ([("Team", "A"), ("Tag", "All Time"), ("Points", "50")] : RowMap)
        ∈ [[("Team", "A"), ("Tag", "All Time"), ("Points", "42")],
           [("Team", "A"), ("Tag", "All Time"), ("Points", "50")]]
      ∧ numericFromRow ["Team", "Tag", "Points"]
          [("Team", "A"), ("Tag", "All Time"), ("Points", "50")] = some 50 :=
  let h := (c4_alltime_dedup_best "Most Points" ["Team", "Tag", "Points"]
      [[("Team", "A"), ("Tag", "All Time"), ("Points", "42")],
       [("Team", "A"), ("Tag", "All Time"), ("Points", "50")]]).1
    "most points::a"
    [("Team", "A"), ("Tag", "All Time"), ("Points", "50")] 50 (by decide)
  ⟨h.1, h.2.1⟩

/-! ### C5: seasonal dedup -/

theorem dedupFirstBy_sublist (sig : RowMap → String) (seen : List String)
    (l : List RowMap) : (dedupFirstBy sig seen l).Sublist l := by
  induction l generalizing seen with
  | nil => simp [dedupFirstBy]
  | cons r t ih =>
    rw [dedupFirstBy]
    by_cases h : sig r ∈ seen
    · rw [if_pos h]
      exact (ih seen).cons r
    · rw [if_neg h]
      exact (ih (sig r :: seen)).cons₂ r

theorem dedupFirstBy_not_seen (sig : RowMap → String) (seen : List String)
    (l : List RowMap) (r : RowMap) (h : r ∈ dedupFirstBy sig seen l) :
    sig r ∉ seen := by
  induction l generalizing seen with
  | nil => simp [dedupFirstBy] at h
  | cons r₀ t ih =>
    rw [dedupFirstBy] at h
    by_cases h₀ : sig r₀ ∈ seen
    · rw [if_pos h₀] at h
      exact ih seen h
    · rw [if_neg h₀] at h
      rcases List.mem_cons.1 h with h | h
      · rw [h]
        exact h₀
      · have h2 := ih (sig r₀ :: seen) h
        exact fun hc => h2 (List.mem_cons_of_mem _ hc)

theorem dedupFirstBy_sig_nodup (sig : RowMap → String) (seen : List String)
    (l : List RowMap) : ((dedupFirstBy sig seen l).map sig).Nodup := by
  induction l generalizing seen with
  | nil => simp [dedupFirstBy]
  | cons r₀ t ih =>
    rw [dedupFirstBy]
    by_cases h₀ : sig r₀ ∈ seen
    · rw [if_pos h₀]
      exact ih seen
    · rw [if_neg h₀]
      rw [List.map_cons, List.nodup_cons]
      refine ⟨?_, ih (sig r₀ :: seen)⟩
      intro hc
      rcases List.mem_map.1 hc with ⟨r, hr, hsig⟩
      exact dedupFirstBy_not_seen sig _ t r hr (hsig ▸ List.mem_cons_self _ _)

theorem dedupFirstBy_covers (sig : RowMap → String) (seen : List String)
    (l : List RowMap) (r : RowMap) (hr : r ∈ l) :
    sig r ∈ seen ∨ ∃ r₀ ∈ dedupFirstBy sig seen l, sig r₀ = sig r := by
  induction l generalizing seen with
  | nil => simp at hr
  | cons x t ih =>
    rw [dedupFirstBy]
    rcases List.mem_cons.1 hr with hr | hr
    · by_cases hx : sig x ∈ seen
      · rw [hr]
        exact Or.inl hx
      · rw [if_neg hx]
        exact Or.inr ⟨x, List.mem_cons_self _ _, by rw [hr]⟩
    · by_cases hx : sig x ∈ seen
      · rw [if_pos hx]
        exact ih seen hr
      · rw [if_neg hx]
        rcases ih (sig x :: seen) hr with hs | ⟨r₀, hr₀, hsig⟩
        · rcases List.mem_cons.1 hs with hs | hs
          · exact Or.inr ⟨x, List.mem_cons_self _ _, hs.symm⟩
          · exact Or.inl hs
        · exact Or.inr ⟨r₀, List.mem_cons_of_mem _ hr₀, hsig⟩

theorem dedupFirstBy_first (sig : RowMap → String) (seen : List String)
    (l : List RowMap) (r : RowMap) (h : r ∈ dedupFirstBy sig seen l) :
    l.find? (fun x => decide (sig x = sig r)) = some r := by
  induction l generalizing seen with
  | nil => simp [dedupFirstBy] at h
  | cons x t ih =>
    rw [dedupFirstBy] at h
    by_cases hx : sig x ∈ seen
    · rw [if_pos hx] at h
      have hne : sig x ≠ sig r := by
        intro hc
        exact dedupFirstBy_not_seen sig seen t r h (hc ▸ hx)
      rw [List.find?_cons_of_neg _ (by simp [hne])]
      exact ih seen h
    · rw [if_neg hx] at h
      rcases List.mem_cons.1 h with h | h
      · subst h
        rw [List.find?_cons_of_pos _ (by simp)]
      · have hns := dedupFirstBy_not_seen sig _ t r h
        have hne : sig x ≠ sig r := fun hc =>
          hns (hc ▸ List.mem_cons_self _ _)
        rw [List.find?_cons_of_neg _ (by simp [hne])]
        exact ih (sig x :: seen) h

/-- Claim C5, amended: every seasonal output section comes from a
non-excluded input section of the selected year and mode, with all-time
rows removed and deduplicated (first-in-input wins, input order preserved)
by the composite signature whose record-holder component falls back to the
"Record Holder" column. -/
theorem c5_seasonal_dedup (data : RecordsData) (mode : SeasonalKey) (year : String) :
    (∀ out ∈ seasonalSections data mode year,
      ∃ yd sec, year ≠ "" ∧ alistGet? data year = some yd ∧ sec ∈ yd.get mode
        ∧ shouldExcludeSection sec.sectionTitle = false
        ∧ out = ⟨sec.sectionTitle, sec.headers,
            dedupFirstBy (seasonalSig sec.sectionTitle sec.headers) []
              (sec.rows.filter (fun r => !(hasAllTimeTag r)))⟩)
    ∧ (∀ (sig : RowMap → String) (l : List RowMap),
        (dedupFirstBy sig [] l).Sublist l
        ∧ ((dedupFirstBy sig [] l).map sig).Nodup
        ∧ (∀ r ∈ l, ∃ r₀ ∈ dedupFirstBy sig [] l, sig r₀ = sig r)
        ∧ (∀ r ∈ dedupFirstBy sig [] l,
            l.find? (fun x => decide (sig x = sig r)) = some r)) := by
  constructor
  · intro out hout
    unfold seasonalSections at hout
    by_cases hy : year = ""
    · rw [if_pos hy] at hout
      simp at hout
    · rw [if_neg hy] at hout
      cases hyd : alistGet? data year with
      | none =>
        rw [hyd] at hout
        simp at hout
      | some yd =>
        rw [hyd] at hout
        rw [mem_jsSort] at hout
        refine ⟨yd, ?_⟩
        have hgen : ∀ (secs : List RecordSection) (acc : List RecordSection),
            out ∈ secs.foldl (fun out sec =>
              if shouldExcludeSection sec.sectionTitle then out
              else
                let rows := sec.rows.filter (fun r => !(hasAllTimeTag r))
                if rows.isEmpty then out
                else out ++ [⟨sec.sectionTitle, sec.headers,
                  dedupFirstBy (seasonalSig sec.sectionTitle sec.headers) [] rows⟩]) acc →
            out ∈ acc ∨ ∃ sec ∈ secs,
              shouldExcludeSection sec.sectionTitle = false
              ∧ out = ⟨sec.sectionTitle, sec.headers,
                  dedupFirstBy (seasonalSig sec.sectionTitle sec.headers) []
                    (sec.rows.filter (fun r => !(hasAllTimeTag r)))⟩ := by
          intro secs
          induction secs with
          | nil =>
            intro acc h
            exact Or.inl h
          | cons sec t iht =>
            intro acc h
            rw [List.foldl_cons] at h
            by_cases hex : shouldExcludeSection sec.sectionTitle
            · rw [if_pos hex] at h
              rcases iht acc h with h | ⟨sec', hsec', hx, hb⟩
              · exact Or.inl h
              · exact Or.inr ⟨sec', List.mem_cons_of_mem _ hsec', hx, hb⟩
            · rw [if_neg hex] at h
              dsimp only at h
              by_cases hem : (sec.rows.filter (fun r => !(hasAllTimeTag r))).isEmpty
              · rw [if_pos hem] at h
                rcases iht acc h with h | ⟨sec', hsec', hx, hb⟩
                · exact Or.inl h
                · exact Or.inr ⟨sec', List.mem_cons_of_mem _ hsec', hx, hb⟩
              · rw [if_neg hem] at h
                rcases iht _ h with h | ⟨sec', hsec', hx, hb⟩
                · rcases List.mem_append.1 h with h | h
                  · exact Or.inl h
                  · refine Or.inr ⟨sec, List.mem_cons_self _ _, ?_, List.mem_singleton.1 h⟩
                    cases hx2 : shouldExcludeSection sec.sectionTitle
                    · rfl
                    · exact absurd hx2 hex
                · exact Or.inr ⟨sec', List.mem_cons_of_mem _ hsec', hx, hb⟩
        rcases hgen (yd.get mode) [] hout with h | ⟨sec, hsec, hx, hb⟩
        · simp at h
        · exact ⟨sec, hy, rfl, hsec, hx, hb⟩
  · intro sig l
    exact ⟨dedupFirstBy_sublist sig [] l, dedupFirstBy_sig_nodup sig [] l,
      fun r hr => (dedupFirstBy_covers sig [] l r hr).resolve_left (by simp),
      fun r hr => dedupFirstBy_first sig [] l r hr⟩

/-- The C5 rows: same first column, same numbers, same "Record Holder",
different "Record". -/
def c5row1 : RowMap :=
  [("Team", "a"), ("Value", "1"), ("Record", "x"), ("Record Holder", "h")]

def c5row2 : RowMap :=
  [("Team", "a"), ("Value", "1"), ("Record", "y"), ("Record Holder", "h")]

def c5data : RecordsData :=
  [("2024", { head_to_head := [], team_points := [],
              team_stats := [⟨"Some Records", ["Team", "Value"], [c5row1, c5row2]⟩] })]

/-- Counterexample to C5 as stated: with no header containing "holder" the
code reads the literal "Record Holder" key, not the "Record" column.  Rows
that agree on "Record Holder" but differ on "Record" get equal code
signatures (the second row is dropped), yet distinct signatures under the
claim's "Record"-fallback reading (which would keep both). -/
theorem c5_counterexample :
    seasonalSections c5data SeasonalKey.team_stats "2024"
      = [⟨"Some Records", ["Team", "Value"], [c5row1]⟩]
    ∧ dedupFirstBy
        (fun r => normalizeCell "Some Records" ++ " :: " ++
          normalizeCell (firstColVal ["Team", "Value"] r) ++ " :: " ++
          extractNumericSignature ["Team", "Value"] r ++ " :: " ++
          normalizeCell ((alistGet? r "Record").getD "")) []
        [c5row1, c5row2]
      = [c5row1, c5row2] := by
  decide

/-! ### C8: hidden managers are excluded from the rendered table but
included in the overall summary -/

theorem foldl_qAdd_proj {ρ : Type} (f : ρ → ℚ) (l : List ρ) :
    l.foldl (fun a r => qAdd a (f r)) 0 = (l.map f).sum := by
  rw [← List.foldl_map]
  have h := qSum_eq 0 (l.map f)
  simpa [qSum] using h

theorem sum_map_filter_split {ρ : Type} (f : ρ → ℚ) (p : ρ → Bool) (l : List ρ) :
    (l.map f).sum
      = ((l.filter (fun x => !(p x))).map f).sum + ((l.filter p).map f).sum := by
  induction l with
  | nil => simp
  | cons a t ih =>
    by_cases h : p a
    · rw [List.map_cons, List.sum_cons, ih, List.filter_cons, List.filter_cons]
      simp only [h, Bool.not_true, Bool.false_eq_true, if_false, if_true,
        List.map_cons, List.sum_cons]
      ring
    · rw [List.map_cons, List.sum_cons, ih, List.filter_cons, List.filter_cons]
      have h' : p a = false := by
        cases hpa : p a
        · rfl
        · exact absurd hpa h
      simp only [h', Bool.not_false, Bool.false_eq_true, if_false, if_true,
        List.map_cons, List.sum_cons]
      ring

theorem overallTotals_totW (tbl : List H2HRow) :
    (overallTotals tbl).totW = (tbl.map H2HRow.wins).sum := foldl_qAdd_proj _ tbl

theorem overallTotals_totL (tbl : List H2HRow) :
    (overallTotals tbl).totL = (tbl.map H2HRow.losses).sum := foldl_qAdd_proj _ tbl

theorem overallTotals_totT (tbl : List H2HRow) :
    (overallTotals tbl).totT = (tbl.map H2HRow.ties).sum := foldl_qAdd_proj _ tbl

theorem overallTotals_pf (tbl : List H2HRow) :
    (overallTotals tbl).pf = (tbl.map H2HRow.pf).sum := foldl_qAdd_proj _ tbl

theorem overallTotals_pa (tbl : List H2HRow) :
    (overallTotals tbl).pa = (tbl.map H2HRow.pa).sum := foldl_qAdd_proj _ tbl

theorem overallTotals_wp (tbl : List H2HRow) :
    (overallTotals tbl).wp
      = winPctOf (overallTotals tbl).totW (overallTotals tbl).totL
          (overallTotals tbl).totT := rfl

/-- Claim C8: an excluded (hidden) manager never appears as a row of the
rendered per-opponent table, yet the rows that involve hidden opponents are
part of the full table, and the overall W/L/T and points summary (and hence
the overall win percentage) is taken over visible AND hidden rows. -/
theorem c8_hidden_in_totals (data : H2H) (tgt : String) (htgt : tgt ≠ "") :
    (∀ r ∈ visibleTable data tgt, isHidden r.opponent = false)
    ∧ (∀ p ∈ data.pairs, ∀ r, orientKeep data.managers tgt p = some r →
        r ∈ h2hTable data tgt)
    ∧ (overallTotals (h2hTable data tgt)).totW
        = (overallTotals (visibleTable data tgt)).totW
          + (overallTotals ((h2hTable data tgt).filter
              (fun r => isHidden r.opponent))).totW
    ∧ (overallTotals (h2hTable data tgt)).totL
        = (overallTotals (visibleTable data tgt)).totL
          + (overallTotals ((h2hTable data tgt).filter
              (fun r => isHidden r.opponent))).totL
    ∧ (overallTotals (h2hTable data tgt)).totT
        = (overallTotals (visibleTable data tgt)).totT
          + (overallTotals ((h2hTable data tgt).filter
              (fun r => isHidden r.opponent))).totT
    ∧ (overallTotals (h2hTable data tgt)).pf
        = (overallTotals (visibleTable data tgt)).pf
          + (overallTotals ((h2hTable data tgt).filter
              (fun r => isHidden r.opponent))).pf
    ∧ (overallTotals (h2hTable data tgt)).pa
        = (overallTotals (visibleTable data tgt)).pa
          + (overallTotals ((h2hTable data tgt).filter
              (fun r => isHidden r.opponent))).pa
    ∧ (overallTotals (h2hTable data tgt)).wp
        = winPctOf
            ((overallTotals (visibleTable data tgt)).totW
              + (overallTotals ((h2hTable data tgt).filter
                  (fun r => isHidden r.opponent))).totW)
            ((overallTotals (visibleTable data tgt)).totL
              + (overallTotals ((h2hTable data tgt).filter
                  (fun r => isHidden r.opponent))).totL)
            ((overallTotals (visibleTable data tgt)).totT
              + (overallTotals ((h2hTable data tgt).filter
                  (fun r => isHidden r.opponent))).totT) := by
  have hvis : visibleTable data tgt
      = (h2hTable data tgt).filter (fun r => !(isHidden r.opponent)) := by
    rw [visibleTable, if_neg htgt]
  have hW : (overallTotals (h2hTable data tgt)).totW
      = (overallTotals (visibleTable data tgt)).totW
        + (overallTotals ((h2hTable data tgt).filter
            (fun r => isHidden r.opponent))).totW := by
    rw [overallTotals_totW, overallTotals_totW, overallTotals_totW, hvis]
    exact sum_map_filter_split _ _ _
  have hL : (overallTotals (h2hTable data tgt)).totL
      = (overallTotals (visibleTable data tgt)).totL
        + (overallTotals ((h2hTable data tgt).filter
            (fun r => isHidden r.opponent))).totL := by
    rw [overallTotals_totL, overallTotals_totL, overallTotals_totL, hvis]
    exact sum_map_filter_split _ _ _
  have hT : (overallTotals (h2hTable data tgt)).totT
      = (overallTotals (visibleTable data tgt)).totT
        + (overallTotals ((h2hTable data tgt).filter
            (fun r => isHidden r.opponent))).totT := by
    rw [overallTotals_totT, overallTotals_totT, overallTotals_totT, hvis]
    exact sum_map_filter_split _ _ _
  refine ⟨?_, ?_, hW, hL, hT, ?_, ?_, ?_⟩
  · intro r hr
    rw [hvis] at hr
    have hb := List.of_mem_filter hr
    cases hi : isHidden r.opponent
    · rfl
    · rw [hi] at hb
      simp at hb
  · intro p hp r hor
    rw [h2hTable, if_neg htgt, mem_jsSort]
    exact List.mem_filterMap.mpr ⟨p, hp, hor⟩
  · rw [overallTotals_pf, overallTotals_pf, overallTotals_pf, hvis]
    exact sum_map_filter_split _ _ _
  · rw [overallTotals_pa, overallTotals_pa, overallTotals_pa, hvis]
    exact sum_map_filter_split _ _ _
  · rw [overallTotals_wp, hW, hL, hT]

/-- Witness for C8: a dataset that contains Brendan both as a roster entry
and as an opponent of the selected manager. -/
theorem c8_hidden_in_totals_witness :
    mkH2HRow "Brendan" 3 0 1 20 5 ∈
      h2hTable ⟨["A", "B", "Brendan"],
        [⟨"A", "B", 2, 1, 0, 10, 8⟩, ⟨"A", "Brendan", 3, 0, 1, 20, 5⟩]⟩ "A" :=
  (c8_hidden_in_totals
      ⟨["A", "B", "Brendan"],
        [⟨"A", "B", 2, 1, 0, 10, 8⟩, ⟨"A", "Brendan", 3, 0, 1, 20, 5⟩]⟩ "A"
      (by decide)).2.1
    ⟨"A", "Brendan", 3, 0, 1, 20, 5⟩ (by decide) (mkH2HRow "Brendan" 3 0 1 20 5)
    (by decide)

/-! ### C10: the two overall win-percentage computations -/

theorem any_filter_ne (managers : List String) (mgr x : String) :
    ((managers.filter (fun m => decide (m ≠ mgr))).any (fun m => decide (m = x))) = true
      ↔ (x ∈ managers ∧ x ≠ mgr) := by
  rw [List.any_eq_true]
  constructor
  · rintro ⟨m, hm, hx⟩
    rw [decide_eq_true_eq] at hx
    subst hx
    have h2 := List.mem_filter.mp hm
    refine ⟨h2.1, ?_⟩
    have := h2.2
    rwa [decide_eq_true_eq] at this
  · rintro ⟨hmem, hne⟩
    exact ⟨x, List.mem_filter.mpr ⟨hmem, by simp [hne]⟩, by simp⟩

theorem orientKeep_side_a (managers : List String) (mgr : String) (p : Pair)
    (hpa : p.a = mgr) (hb : p.b ∈ managers ∧ p.b ≠ mgr) :
    orientKeep managers mgr p
      = some (mkH2HRow p.b p.a_wins p.b_wins p.ties p.a_points_for p.b_points_for) := by
  unfold orientKeep
  rw [if_pos hpa, if_pos ((any_filter_ne managers mgr p.b).mpr hb)]

theorem orientKeep_side_b (managers : List String) (mgr : String) (p : Pair)
    (hpa : p.a ≠ mgr) (hpb : p.b = mgr) (ha : p.a ∈ managers ∧ p.a ≠ mgr) :
    orientKeep managers mgr p
      = some (mkH2HRow p.a p.b_wins p.a_wins p.ties p.b_points_for p.a_points_for) := by
  unfold orientKeep
  rw [if_neg hpa, if_pos hpb, if_pos ((any_filter_ne managers mgr p.a).mpr ha)]

theorem orientKeep_none (managers : List String) (mgr : String) (p : Pair)
    (hpa : p.a ≠ mgr) (hpb : p.b ≠ mgr) :
    orientKeep managers mgr p = none := by
  unfold orientKeep
  rw [if_neg hpa, if_neg hpb]

/-- Counterexample to C10 as stated: with the pair `{a:"M", b:"M"}` (the
"other participant" M is in the managers array) the roll-of-honour win
percentage is 1 while the head-to-head overall PCT is 0; likewise for the
empty-string manager name, whose page guard empties the table. -/
theorem c10_counterexample :
    (rollWinPct ⟨["M"], [⟨"M", "M", 1, 0, 0, 0, 0⟩]⟩ "M"
        ≠ overallPct ⟨["M"], [⟨"M", "M", 1, 0, 0, 0, 0⟩]⟩ "M")
    ∧ (rollWinPct ⟨["N"], [⟨"", "N", 1, 0, 0, 0, 0⟩]⟩ ""
        ≠ overallPct ⟨["N"], [⟨"", "N", 1, 0, 0, 0, 0⟩]⟩ "") := by
  decide

/-- Claim C10 as amended: for a non-empty manager name, when every pair's
two sides are distinct from the manager unless they name it, and the
opposite side of every pair touching the manager is a listed manager other
than the manager itself, the roll-of-honour win percentage equals the
head-to-head overall PCT; when a pair's opponent is absent from the managers
array the two computations can differ. -/
theorem c10_winpct_agreement (data : H2H) (mgr : String) (hm : mgr ≠ "")
    (hp : ∀ p ∈ data.pairs,
        (p.a = mgr → p.b ∈ data.managers ∧ p.b ≠ mgr)
        ∧ (p.b = mgr → p.a ∈ data.managers ∧ p.a ≠ mgr)) :
    rollWinPct data mgr = overallPct data mgr
    ∧ rollWinPct ⟨["M"], [⟨"M", "Z", 1, 0, 0, 0, 0⟩]⟩ "M"
        ≠ overallPct ⟨["M"], [⟨"M", "Z", 1, 0, 0, 0, 0⟩]⟩ "M" := by
  constructor
  · have key : ∀ (l : List Pair), (∀ p ∈ l,
        (p.a = mgr → p.b ∈ data.managers ∧ p.b ≠ mgr)
        ∧ (p.b = mgr → p.a ∈ data.managers ∧ p.a ≠ mgr)) →
        ∀ acc : ℚ × ℚ × ℚ,
        l.foldl
          (fun acc p =>
            if p.a = mgr then (qAdd acc.1 p.a_wins, qAdd acc.2.1 p.b_wins, qAdd acc.2.2 p.ties)
            else if p.b = mgr then (qAdd acc.1 p.b_wins, qAdd acc.2.1 p.a_wins, qAdd acc.2.2 p.ties)
            else acc) acc
          = (acc.1 + (((l.filterMap (orientKeep data.managers mgr)).map H2HRow.wins).sum),
             acc.2.1 + (((l.filterMap (orientKeep data.managers mgr)).map H2HRow.losses).sum),
             acc.2.2 + (((l.filterMap (orientKeep data.managers mgr)).map H2HRow.ties).sum)) := by
      intro l
      induction l with
      | nil =>
        intro _ acc
        simp
      | cons p t ih =>
        intro hcond acc
        have hpc := hcond p (List.mem_cons_self p t)
        have htc : ∀ q ∈ t,
            (q.a = mgr → q.b ∈ data.managers ∧ q.b ≠ mgr)
            ∧ (q.b = mgr → q.a ∈ data.managers ∧ q.a ≠ mgr) :=
          fun q hq => hcond q (List.mem_cons_of_mem p hq)
        rw [List.foldl_cons]
        by_cases hpa : p.a = mgr
        · rw [if_pos hpa, ih htc]
          rw [List.filterMap_cons_some (orientKeep_side_a data.managers mgr p hpa (hpc.1 hpa))]
          simp only [List.map_cons, List.sum_cons, mkH2HRow, qAdd_eq]
          refine Prod.ext ?_ (Prod.ext ?_ ?_) <;> dsimp <;> ring
        · by_cases hpb : p.b = mgr
          · rw [if_neg hpa, if_pos hpb, ih htc]
            rw [List.filterMap_cons_some
              (orientKeep_side_b data.managers mgr p hpa hpb (hpc.2 hpb))]
            simp only [List.map_cons, List.sum_cons, mkH2HRow, qAdd_eq]
            refine Prod.ext ?_ (Prod.ext ?_ ?_) <;> dsimp <;> ring
          · rw [if_neg hpa, if_neg hpb, ih htc]
            rw [List.filterMap_cons_none (orientKeep_none data.managers mgr p hpa hpb)]
    have hWLT := key data.pairs hp (0, 0, 0)
    have hsum : ∀ f : H2HRow → ℚ,
        ((h2hTable data mgr).map f).sum
          = ((data.pairs.filterMap (orientKeep data.managers mgr)).map f).sum := by
      intro f
      rw [h2hTable, if_neg hm]
      exact ((jsSort_perm _ _).map f).sum_eq
    rw [rollWinPct, rollWLT, hWLT]
    rw [overallPct, overallTotals_wp, overallTotals_totW, overallTotals_totL,
      overallTotals_totT, hsum, hsum, hsum]
    dsimp
    rw [zero_add, zero_add, zero_add]
  · decide

/-- Witness for C10 at a two-manager dataset satisfying the hypotheses. -/
theorem c10_winpct_agreement_witness :
    rollWinPct ⟨["A", "B"], [⟨"A", "B", 2, 1, 1, 10, 9⟩]⟩ "A"
      = overallPct ⟨["A", "B"], [⟨"A", "B", 2, 1, 1, 10, 9⟩]⟩ "A" :=
  (c10_winpct_agreement ⟨["A", "B"], [⟨"A", "B", 2, 1, 1, 10, 9⟩]⟩ "A"
    (by decide) (by decide)).1

/-- Witness for C3: a concrete drafted-then-added player. -/
theorem c3_ownership_tracker_witness :
    ∃ v, alistGet?
        (ownershipMap
          [⟨"Jordan Addison", "WR", "MIN", "Team M"⟩]
          [⟨2025, 5, "add", "Jordan Addison", "WR", "MIN", "", "Team N", ""⟩])
        "Jordan Addison" = some v
      ∧ v.drafted = 1 ∧ v.adds = 1 ∧ v.total = 2
      ∧ v.owned = [⟨"Team M", AcqType.drafted⟩, ⟨"Team N", AcqType.waiver⟩]
      ∧ v ∈ leaderboard
          [⟨"Jordan Addison", "WR", "MIN", "Team M"⟩]
          [⟨2025, 5, "add", "Jordan Addison", "WR", "MIN", "", "Team N", ""⟩] "" 2 :=
  c3_ownership_tracker
    [⟨"Jordan Addison", "WR", "MIN", "Team M"⟩]
    [⟨2025, 5, "add", "Jordan Addison", "WR", "MIN", "", "Team N", ""⟩]
    "Jordan Addison" "Team M" "Team N"
    ⟨"Jordan Addison", "WR", "MIN", "Team M"⟩
    ⟨2025, 5, "add", "Jordan Addison", "WR", "MIN", "", "Team N", ""⟩
    (by decide) (by decide) (by decide) (by decide) (by decide) (by decide) (by decide)

/-! ### Draft Board Grouper (draft-history page) and the C9 empty-input
round trip -/

/-- Group a season's draft picks by round (`groupedByRoundSingle`):
non-finite round numbers fall into group 0, groups sorted ascending, picks
kept in source order. -/
def groupedByRoundSingle (rows : List RowMap) : List (ℚ × List RowMap) :=
  let m := rows.foldl (fun m r =>
    let key := ((alistGet? r "round").bind jsNumberFinite).getD 0
    alistSet m key ((alistGet? m key).getD [] ++ [r])) []
  jsSort (cmpLe (fun a b => cmpAsc a.1 b.1)) m

/-- Witness for C5 at a concrete two-row seasonal section. -/
theorem c5_seasonal_dedup_witness :
    ∃ yd sec, ("2024" : String) ≠ ""
      ∧ alistGet? c5data "2024" = some yd
      ∧ sec ∈ yd.get SeasonalKey.team_stats
      ∧ shouldExcludeSection sec.sectionTitle = false
      ∧ (⟨"Some Records", ["Team", "Value"], [c5row1]⟩ : RecordSection)
          = ⟨sec.sectionTitle, sec.headers,
              dedupFirstBy (seasonalSig sec.sectionTitle sec.headers) []
                (sec.rows.filter (fun r => !(hasAllTimeTag r)))⟩ :=
  (c5_seasonal_dedup c5data SeasonalKey.team_stats "2024").1
    ⟨"Some Records", ["Team", "Value"], [c5row1]⟩ (by decide)

/-- Claim C9: the empty input yields the empty output everywhere — the
parser on empty text, the Season Aggregator, the Head-to-Head Resolver, the
Ownership Tracker, both Record-Breaker modes and the Draft Board Grouper on
empty collections. -/
theorem c9_empty_inputs :
    parseCsv "" = []
    ∧ (∀ h2hData : Option H2H, rollTable [] h2hData = [])
    ∧ (∀ tgt : String, h2hTable ⟨[], []⟩ tgt = [])
    ∧ (∀ (query : String) (minPickups : Nat), leaderboard [] [] query minPickups = [])
    ∧ allTimeSections [] = []
    ∧ (∀ (mode : SeasonalKey) (year : String), seasonalSections [] mode year = [])
    ∧ groupedByRoundSingle [] = [] := by
  refine ⟨rfl, fun _ => rfl, ?_, ?_, rfl, ?_, rfl⟩
  · intro tgt
    unfold h2hTable
    split
    · rfl
    · rfl
  · intro query minPickups
    rfl
  · intro mode year
    unfold seasonalSections
    split
    · rfl
    · rfl

end KPL
